import Mathlib

/-!
Verification of the model-performance aggregation engine of this repository.

Shallow embedding of `src/psycopmlutils/model_performance/model_performance.py`
and `src/psycopmlutils/model_comparison/utils.py`:

* a pandas Series of floats is a `List ℚ` (exact rational arithmetic stands in
  for IEEE doubles; every algorithm here is plain field arithmetic),
* a Series of per-class probability vectors is a `List (List ℚ)`,
* a label column is `LabelCol`, mirroring the `dtype` dispatch of the source,
* a raised Python exception is `Except.error` carrying the message text,
* file loading and glob matching are environment inputs and are passed in as
  explicit arguments (an oracle `load` and the list of matched paths).
-/

/- ## Python / numpy / pandas primitives -/

/-- Worker for `pyUnique`: `seen` holds the values already emitted. -/
def pyUniqueAux {α : Type} [DecidableEq α] : List α → List α → List α
  | _, [] => []
  | seen, x :: xs =>
      if x ∈ seen then pyUniqueAux seen xs else x :: pyUniqueAux (x :: seen) xs

/-- `pandas.Series.unique`: distinct values in first-occurrence order. -/
def pyUnique {α : Type} [DecidableEq α] (l : List α) : List α :=
  pyUniqueAux [] l

/-- Python `dict` insertion: overwrite in place if the key exists, else append. -/
def pyDictInsert {α β : Type} [DecidableEq α] (d : List (α × β)) (k : α) (v : β) :
    List (α × β) :=
  if d.any (fun p => decide (p.1 = k)) then
    d.map (fun p => if p.1 = k then (k, v) else p)
  else d ++ [(k, v)]

/-- Python `dict` lookup (`d.get(k)` flavour; `none` models a `KeyError` site). -/
def pyLookup {α β : Type} [DecidableEq α] (d : List (α × β)) (k : α) : Option β :=
  (d.find? (fun p => decide (p.1 = k))).map (·.2)

/-- The comprehension `{v: k for k, v in id2label.items()}` (later entries win). -/
def pyInvert {α β : Type} [DecidableEq α] [DecidableEq β] (d : List (α × β)) :
    List (β × α) :=
  d.foldl (fun acc p => pyDictInsert acc p.2 p.1) []

/-- Python truthiness of an optional dict: `None` and `{}` are falsy. -/
def pyTruthy {α : Type} : Option (List α) → Bool
  | some (_ :: _) => true
  | _ => false

/-- Split a character list at the first occurrence of `'-'`. -/
def splitFirstDash : List Char → Option (List Char × List Char)
  | [] => none
  | c :: cs =>
      if c = '-' then some ([], cs)
      else match splitFirstDash cs with
        | none => none
        | some p => some (c :: p.1, p.2)

/-- Python `s.split("-", 1)`: the part before the first `'-'` and the rest.
All split keys produced by the engine contain a `'-'`; on a dash-free string
the second component is returned empty. -/
def pySplit1 (s : String) : String × String :=
  match splitFirstDash s.data with
  | none => (s, "")
  | some p => (⟨p.1⟩, ⟨p.2⟩)

/-- Python `s.split("-", 2)`: split at the first two occurrences of `'-'`. -/
def pySplit2 (s : String) : String × String × String :=
  let a := pySplit1 s
  let b := pySplit1 a.2
  (a.1, b.1, b.2)

/-- The final path component, as `pathlib.PurePath.name`. -/
def lastComponent (p : String) : String :=
  ⟨(p.data.reverse.takeWhile (fun c => decide (c ≠ '/'))).reverse⟩

/-- `pathlib.PurePath.suffix`: the extension of the final component.  Empty
when the name has no dot, ends with a dot, or the only dot is leading. -/
def pathSuffixOf (p : String) : String :=
  let n := (lastComponent p).data
  let tail := n.reverse.takeWhile (fun c => decide (c ≠ '.'))
  if tail.length = n.length then ""
  else if tail.length = 0 then ""
  else if tail.length = n.length - 1 then ""
  else ⟨'.' :: tail.reverse⟩

/-- `numpy.round` on a scalar: round half to even (banker's rounding). -/
def npRound (x : ℚ) : ℤ :=
  let f := x.floor
  let frac := x - f
  if frac < 1/2 then f
  else if 1/2 < frac then f + 1
  else if f % 2 = 0 then f else f + 1

/-- Worker for `npArgmax`: current maximum, its index, and the next index. -/
def npArgmaxGo : List ℚ → ℚ → ℕ → ℕ → ℕ
  | [], _, best, _ => best
  | y :: ys, m, best, i => if m < y then npArgmaxGo ys y i (i + 1) else npArgmaxGo ys m best (i + 1)

/-- `numpy.argmax`: index of the first maximal entry (0 on the empty list,
which in the source would be an error; call sites pass nonempty vectors). -/
def npArgmax : List ℚ → ℕ
  | [] => 0
  | x :: xs => npArgmaxGo xs x 0 1

/-- Division with the scikit-learn `zero_division=0` convention. -/
def safeDiv (a b : ℚ) : ℚ := if b = 0 then 0 else a / b

/- ## Data model -/

/-- A class label cell: either an integer class index or a string class name. -/
inductive Lbl : Type
  | i (z : ℤ)
  | s (t : String)
deriving DecidableEq, Repr

/-- Rendering of a label inside an f-string such as `f"f1-{group}"`. -/
def lblToString : Lbl → String
  | .i z => toString z
  | .s t => t

/-- Python ordering on homogeneous labels (the cross-constructor cases are
never exercised: Python `sorted` rejects mixed int/str sets). -/
def lblLeB : Lbl → Lbl → Bool
  | .i a, .i b => decide (a ≤ b)
  | .s a, .s b => decide (a ≤ b)
  | .i _, .s _ => true
  | .s _, .i _ => false

/-- The score column: scalar probabilities (`dtype == "float"`) or
per-class probability vectors (object dtype). -/
inductive ScoreCol : Type
  | floats (xs : List ℚ)
  | vecs (vs : List (List ℚ))
deriving DecidableEq, Repr

/-- The ground-truth label column, by dtype. -/
inductive LabelCol : Type
  | ints (ls : List ℤ)
  | strs (ls : List String)
deriving DecidableEq, Repr

/-- One prediction table: parallel id, score and label columns. -/
@[ext]
structure PredTable : Type where
  ids : List ℤ
  scores : ScoreCol
  labels : LabelCol
deriving DecidableEq, Repr

/-- A metric value: a number, or the confusion matrix kept as an opaque
structured value. -/
inductive MetricVal : Type
  | num (q : ℚ)
  | mat (m : List (List ℕ))
deriving DecidableEq, Repr

/-- One row of the long (tidy) layout.  `cls` is the source's `class` column;
`level` is `none` when the `level` column is absent or null. -/
@[ext]
structure LongRow : Type where
  level : Option String
  cls : String
  score_type : String
  value : MetricVal
deriving DecidableEq, Repr

/-- A metrics frame: a single wide row (column name, value) or long rows. -/
inductive MetricsDF : Type
  | wide (cols : List (String × MetricVal))
  | long (rows : List LongRow)
deriving DecidableEq, Repr

/- ## model_comparison/utils.py -/

/-- `scores_to_probs`: probability of class 1.  Scalar scores pass through;
vector scores yield `x[1]` (call sites are guarded by the binary-shape check;
`getD` stands in for the indexing that assumes length ≥ 2). -/
def scores_to_probs : ScoreCol → List ℚ
  | .floats xs => xs
  | .vecs vs => vs.map (fun v => v.getD 1 0)

/-- `labels_to_int`: int-typed labels pass through unchanged; otherwise each
label is looked up in `label2id` (`KeyError` when absent, `TypeError` when the
dict is `None` and there is a label to convert). -/
def labels_to_int (labels : LabelCol) (label2id : Option (List (String × ℤ))) :
    Except String (List ℤ) :=
  match labels with
  | .ints ls => Except.ok ls
  | .strs ss =>
      match label2id with
      | none =>
          match ss with
          | [] => Except.ok []
          | _ => Except.error "TypeError: NoneType object is not subscriptable"
      | some d =>
          ss.mapM (fun s =>
            match pyLookup d s with
            | some k => Except.ok k
            | none => Except.error ("KeyError: " ++ s))

/-- `idx_to_class`: `[mapping[id] for id in idx]`, `KeyError` on a missing key. -/
def idx_to_class (idx : List ℕ) (mapping : List (ℤ × String)) :
    Except String (List String) :=
  idx.mapM (fun i =>
    match pyLookup mapping (i : ℤ) with
    | some s => Except.ok s
    | none => Except.error ("KeyError: " ++ toString i))

/-- The values of column `xs` in the rows whose id equals `k` (row order kept). -/
def groupVals {α : Type} (ids : List ℤ) (xs : List α) (k : ℤ) : List α :=
  ((ids.zip xs).filter (fun p => decide (p.1 = k))).map (·.2)

/-- `mean_scores` on a vector group: `np.stack(x).mean(axis=0)`.
`np.stack` raises when the vectors do not share one length. -/
def vecMean (vs : List (List ℚ)) : Except String (List ℚ) :=
  match vs with
  | [] => Except.error "need at least one array to stack"
  | v :: rest =>
      if rest.all (fun w => decide (w.length = v.length)) then
        Except.ok ((List.range v.length).map (fun j =>
          (vs.map (fun w => w.getD j 0)).sum / (vs.length : ℚ)))
      else Except.error "all input arrays must have the same shape"

/-- `mean_scores` on a scalar group: `np.stack(x).mean(axis=0)` is the mean. -/
def floatMean (xs : List ℚ) : ℚ := xs.sum / (xs.length : ℚ)

/-- `get_first_entry`: `x.unique()[0]`, the first value of the group. -/
def get_first_entry {α : Type} [DecidableEq α] [Inhabited α] (xs : List α) : α :=
  (pyUnique xs).headD default

/-- The group keys of `df.groupby(id_col)`: distinct ids sorted ascending. -/
def sortedKeys (ids : List ℤ) : List ℤ :=
  List.insertionSort (· ≤ ·) (pyUnique ids)

/-- `aggregate_predictions`: group by id; scores become the group-wise
(element-wise) mean, the label becomes the first value of the group. -/
def aggregate_predictions (df : PredTable) : Except String PredTable :=
  let keys := sortedKeys df.ids
  let labels : LabelCol :=
    match df.labels with
    | .ints ls => .ints (keys.map (fun k => get_first_entry (groupVals df.ids ls k)))
    | .strs ls => .strs (keys.map (fun k => get_first_entry (groupVals df.ids ls k)))
  match df.scores with
  | .floats xs =>
      Except.ok ⟨keys, .floats (keys.map (fun k => floatMean (groupVals df.ids xs k))), labels⟩
  | .vecs vs =>
      (keys.mapM (fun k => vecMean (groupVals df.ids vs k))).map
        (fun ms => ⟨keys, .vecs ms, labels⟩)

/-- Column names of a metadata-bearing frame (ordered, as `df.columns`). -/
def dfColNames {V : Type} (df : List (String × List V)) : List String :=
  df.map (·.1)

/-- The values of the named column (first match; empty when absent). -/
def colOf {V : Type} (df : List (String × List V)) (c : String) : List V :=
  ((df.find? (fun col => decide (col.1 = c))).map (·.2)).getD []

/-- One iteration of the named-columns loop of `get_metadata_cols`: the
requested name must exist and be single-valued (`ValueError` otherwise,
`IndexError` on an empty column). -/
def metaStep {V : Type} [DecidableEq V] (df : List (String × List V))
    (md : List (String × V)) (c : String) : Except String (List (String × V)) :=
  if c ∈ dfColNames df then
    match pyUnique (colOf df c) with
    | [] => Except.error "IndexError: index 0 is out of bounds"
    | [v] => Except.ok (pyDictInsert md c v)
    | _ => Except.error ("The column " ++ c ++ " contains more than one unique value.")
  else
    Except.error ("The metadata column " ++ c ++ " is not contained in the data")

/-- `get_metadata_cols`: sentinel `"all"` keeps every non-skipped single-valued
column; otherwise each requested name goes through `metaStep` in order
(`IndexError` on empty `cols`). -/
def get_metadata_cols {V : Type} [DecidableEq V] (df : List (String × List V))
    (cols : List String) (skip : List String) : Except String (List (String × V)) :=
  match cols with
  | [] => Except.error "IndexError: list index out of range"
  | c0 :: _ =>
      if c0 = "all" then
        Except.ok (df.foldl (fun md col =>
          if col.1 ∈ skip then md
          else match pyUnique col.2 with
            | [v] => pyDictInsert md col.1 v
            | _ => md) [])
      else
        cols.foldlM (metaStep df) []

/-- `add_metadata_cols`: broadcast the single metadata row onto `nrows` rows
(the constant columns joined next to the metrics frame). -/
def add_metadata_cols {V : Type} (nrows : ℕ) (metadata : List (String × V)) :
    List (String × List V) :=
  metadata.map (fun kv => (kv.1, List.replicate nrows kv.2))

/- ## Metric computation (scikit-learn semantics) -/

/-- Number of rows where the prediction equals the ground truth. -/
def countMatches (pairs : List (Lbl × Lbl)) : ℕ :=
  pairs.countP (fun p => decide (p.1 = p.2))

/-- `sklearn.metrics.accuracy_score`. -/
def accuracy_score (labels predicted : List Lbl) : ℚ :=
  (countMatches (labels.zip predicted) : ℚ) / (labels.length : ℚ)

/-- True positives of class `c`. -/
def tpOf (pairs : List (Lbl × Lbl)) (c : Lbl) : ℕ :=
  pairs.countP (fun p => decide (p.1 = c ∧ p.2 = c))

/-- False positives of class `c`. -/
def fpOf (pairs : List (Lbl × Lbl)) (c : Lbl) : ℕ :=
  pairs.countP (fun p => decide (¬ p.1 = c ∧ p.2 = c))

/-- False negatives of class `c`. -/
def fnOf (pairs : List (Lbl × Lbl)) (c : Lbl) : ℕ :=
  pairs.countP (fun p => decide (p.1 = c ∧ ¬ p.2 = c))

/-- One-vs-rest precision of class `c` (0 on zero division, as scikit-learn). -/
def precisionOf (pairs : List (Lbl × Lbl)) (c : Lbl) : ℚ :=
  safeDiv (tpOf pairs c) ((tpOf pairs c : ℚ) + (fpOf pairs c : ℚ))

/-- One-vs-rest recall of class `c`. -/
def recallOf (pairs : List (Lbl × Lbl)) (c : Lbl) : ℚ :=
  safeDiv (tpOf pairs c) ((tpOf pairs c : ℚ) + (fnOf pairs c : ℚ))

/-- One-vs-rest F1 of class `c`: `2*tp / (2*tp + fp + fn)`. -/
def f1Of (pairs : List (Lbl × Lbl)) (c : Lbl) : ℚ :=
  safeDiv (2 * (tpOf pairs c : ℚ))
    (2 * (tpOf pairs c : ℚ) + (fpOf pairs c : ℚ) + (fnOf pairs c : ℚ))

/-- Unweighted mean of a per-class metric over the class set. -/
def macroAvg (classes : List Lbl) (f : Lbl → ℚ) : ℚ :=
  safeDiv ((classes.map f).sum) (classes.length : ℚ)

/-- Micro-averaged precision: pooled tp / (tp + fp). -/
def microPrecision (classes : List Lbl) (pairs : List (Lbl × Lbl)) : ℚ :=
  safeDiv ((classes.map (tpOf pairs)).sum : ℚ)
    (((classes.map (tpOf pairs)).sum : ℚ) + ((classes.map (fpOf pairs)).sum : ℚ))

/-- Micro-averaged recall: pooled tp / (tp + fn). -/
def microRecall (classes : List Lbl) (pairs : List (Lbl × Lbl)) : ℚ :=
  safeDiv ((classes.map (tpOf pairs)).sum : ℚ)
    (((classes.map (tpOf pairs)).sum : ℚ) + ((classes.map (fnOf pairs)).sum : ℚ))

/-- Micro-averaged F1 from the pooled counts. -/
def microF1 (classes : List Lbl) (pairs : List (Lbl × Lbl)) : ℚ :=
  safeDiv (2 * ((classes.map (tpOf pairs)).sum : ℚ))
    (2 * ((classes.map (tpOf pairs)).sum : ℚ) + ((classes.map (fpOf pairs)).sum : ℚ)
      + ((classes.map (fnOf pairs)).sum : ℚ))

/-- `sklearn.metrics.confusion_matrix` over the sorted union class set. -/
def confusionMat (classes : List Lbl) (pairs : List (Lbl × Lbl)) : List (List ℕ) :=
  classes.map (fun a => classes.map (fun b =>
    pairs.countP (fun p => decide (p.1 = a ∧ p.2 = b))))

/-- `sorted(set(x))` on labels. -/
def sortedSet (l : List Lbl) : List Lbl :=
  List.insertionSort (fun a b => lblLeB a b = true) (pyUnique l)

/-- The `performance` dict of `ModelPerformance.compute_metrics`, in insertion
order: the overall metrics, then per true-label class (`groups`, sorted) the
`f1-`, `precision-`, `recall-` entries.  The per-class arrays returned by
scikit-learn range over the sorted union of true and predicted classes, and
the source indexes them by position in `groups` — modelled verbatim. -/
def pyPerformanceRecord (labels predicted : List Lbl) : List (String × MetricVal) :=
  let pairs := labels.zip predicted
  let groups := sortedSet labels
  let classes := sortedSet (labels ++ predicted)
  [("acc-overall", MetricVal.num (accuracy_score labels predicted)),
   ("f1_macro-overall", MetricVal.num (macroAvg classes (f1Of pairs))),
   ("f1_micro-overall", MetricVal.num (microF1 classes pairs)),
   ("precision_macro-overall", MetricVal.num (macroAvg classes (precisionOf pairs))),
   ("precision_micro-overall", MetricVal.num (microPrecision classes pairs)),
   ("recall_macro-overall", MetricVal.num (macroAvg classes (recallOf pairs))),
   ("recall_micro-overall", MetricVal.num (microRecall classes pairs)),
   ("confusion_matrix-overall", MetricVal.mat (confusionMat classes pairs))]
  ++ groups.enum.flatMap (fun ig =>
      [("f1-" ++ lblToString ig.2,
         MetricVal.num ((classes.map (f1Of pairs)).getD ig.1 0)),
       ("precision-" ++ lblToString ig.2,
         MetricVal.num ((classes.map (precisionOf pairs)).getD ig.1 0)),
       ("recall-" ++ lblToString ig.2,
         MetricVal.num ((classes.map (recallOf pairs)).getD ig.1 0))])

/-- Apply the optional level tag to a metric name, as the prefixing
comprehensions of the source. -/
def tagKey : Option String → String → String
  | some p, k => p ++ "-" ++ k
  | none, k => k

/-- `ModelPerformance.compute_metrics`: build the record, optionally tag every
name with the level, return one wide row, or melt and split the names back
into (level,) score_type and class columns. -/
def compute_metrics (labels predicted : List Lbl) (to_wide : Bool)
    (level_tag : Option String) : MetricsDF :=
  let record := (pyPerformanceRecord labels predicted).map
    (fun kv => (tagKey level_tag kv.1, kv.2))
  if to_wide then .wide record
  else .long (record.map (fun kv =>
    match level_tag with
    | some _ =>
        let s := pySplit2 kv.1
        ⟨some s.1, s.2.2, s.2.1, kv.2⟩
    | none =>
        let s := pySplit1 kv.1
        ⟨none, s.2, s.1, kv.2⟩))

/-- `sklearn.metrics.roc_auc_score` on binary 0/1 labels, in its
Mann–Whitney formulation: the tie-corrected fraction of (positive, negative)
pairs ranked correctly by the score. -/
def roc_auc_score (labels : List ℤ) (scores : List ℚ) : ℚ :=
  let pairs := labels.zip scores
  let pos := (pairs.filter (fun p => decide (p.1 = 1))).map (·.2)
  let neg := (pairs.filter (fun p => decide (¬ p.1 = 1))).map (·.2)
  safeDiv
    ((pos.flatMap (fun a => neg.map (fun b =>
      if b < a then (1 : ℚ) else if a = b then 1/2 else 0))).sum)
    ((pos.length : ℚ) * (neg.length : ℚ))

/-- `ModelPerformance.calculate_roc_auc`: a single overall AUC value, as a
one-column wide row or a single long row. -/
def calculate_roc_auc (labels : List ℤ) (predicted : List ℚ) (to_wide : Bool)
    (level_tag : Option String) : MetricsDF :=
  let roc := roc_auc_score labels predicted
  if to_wide then
    .wide ([("auc-overall", MetricVal.num roc)].map
      (fun kv => (tagKey level_tag kv.1, kv.2)))
  else
    .long [⟨level_tag, "overall", "auc", MetricVal.num roc⟩]

/- ## model_performance.py: the evaluation pipeline -/

/-- The label column as a homogeneous list of label values. -/
def lblColToLbls : LabelCol → List Lbl
  | .ints ls => ls.map Lbl.i
  | .strs ls => ls.map Lbl.s

/-- Predicted classes: `np.round` for scalar scores; arg-max for vectors,
passed through `idx_to_class` when a (truthy) `id2label` is supplied. -/
def predictionsOf (s : ScoreCol) (id2label : Option (List (ℤ × String))) :
    Except String (List Lbl) :=
  match s with
  | .vecs vs =>
      let argmax_indices := vs.map npArgmax
      if pyTruthy id2label then
        (idx_to_class argmax_indices (id2label.getD [])).map (fun l => l.map Lbl.s)
      else
        Except.ok (argmax_indices.map (fun i => Lbl.i (Int.ofNat i)))
  | .floats xs => Except.ok (xs.map (fun x => Lbl.i (npRound x)))

/-- The test `isinstance(first_score, float) or len(first_score) == 2` on
`take([0]).values[0]` (an `IndexError` on an empty column). -/
def binaryShapedHead : ScoreCol → Except String Bool
  | .floats xs =>
      match xs with
      | [] => Except.error "IndexError: index 0 is out of bounds"
      | _ => Except.ok true
  | .vecs vs =>
      match vs with
      | [] => Except.error "IndexError: index 0 is out of bounds"
      | v :: _ => Except.ok (decide (v.length = 2))

/-- Column-wise append, `metrics.join(auc_df)` on two single-row frames. -/
def wideJoin : MetricsDF → MetricsDF → MetricsDF
  | .wide a, .wide b => .wide (a ++ b)
  | a, _ => a

/-- Row-wise append, `pd.concat([metrics, auc_df])` on long frames (the
`reset_index()` bookkeeping column is not represented). -/
def longConcat : MetricsDF → MetricsDF → MetricsDF
  | .long a, .long b => .long (a ++ b)
  | a, _ => a

/-- `ModelPerformance._evaluate_single_model`: optional per-id aggregation,
prediction extraction, metric computation, and the binary-only AUC merge. -/
def evaluate_single_model (df : PredTable) (aggregate_by_id : Bool)
    (to_wide : Bool) (id2label : Option (List (ℤ × String))) :
    Except String MetricsDF := do
  let level_tag : Option String := if aggregate_by_id then some "id" else none
  let t ← if aggregate_by_id then aggregate_predictions df else Except.ok df
  let predictions ← predictionsOf t.scores id2label
  let labels := lblColToLbls t.labels
  let metrics := compute_metrics labels predictions to_wide level_tag
  let isBin ← binaryShapedHead t.scores
  if isBin then do
    let label2id := if pyTruthy id2label then some (pyInvert (id2label.getD [])) else none
    let probs := scores_to_probs t.scores
    let label_int ← labels_to_int t.labels label2id
    let auc_df := calculate_roc_auc label_int probs to_wide level_tag
    if to_wide then Except.ok (wideJoin metrics auc_df)
    else Except.ok (longConcat metrics auc_df)
  else Except.ok metrics

/-- `performance_description.add_prefix("row-")` on the wide layout. -/
def addNameTag (p : String) : MetricsDF → MetricsDF
  | .wide cols => .wide (cols.map (fun kv => (p ++ "-" ++ kv.1, kv.2)))
  | .long rows => .long rows

/-- `performance_description["level"] = "row"` on the long layout. -/
def setLevelCol (p : String) : MetricsDF → MetricsDF
  | .long rows => .long (rows.map (fun r => { r with level := some p }))
  | .wide cols => .wide cols

/-- `ModelPerformance.performance_metrics_from_df` (metadata-free calls; the
metadata branch delegates to the separately modelled `get_metadata_cols` /
`add_metadata_cols`).  `use_id_col` states whether an id column name was
supplied. -/
def performance_metrics_from_df (df : PredTable) (use_id_col : Bool)
    (id2label : Option (List (ℤ × String))) (to_wide : Bool) :
    Except String MetricsDF := do
  let pd ← evaluate_single_model df false to_wide id2label
  if use_id_col then do
    let tagged := if to_wide then addNameTag "row" pd else setLevelCol "row" pd
    let by_id ← evaluate_single_model df true to_wide id2label
    Except.ok (if to_wide then wideJoin tagged by_id else longConcat tagged by_id)
  else Except.ok pd

/-- `ModelPerformance.performance_metrics_from_file`: reject any path whose
suffix is not `".jsonl"` before touching the file; otherwise load (via the
environment oracle `load`) and delegate to the table-based entry point. -/
def performance_metrics_from_file (path : String) (load : String → PredTable)
    (use_id_col : Bool) (id2label : Option (List (ℤ × String))) (to_wide : Bool) :
    Except String MetricsDF :=
  if pathSuffixOf path = ".jsonl" then
    performance_metrics_from_df (load path) use_id_col id2label to_wide
  else
    Except.error ("Only .jsonl files are supported for import, not " ++ pathSuffixOf path)

/-- `ModelPerformance.performance_metrics_from_folder`: run the file entry
point on every glob match (`files` is the match list, an environment input)
and concatenate.  `pd.concat` raises on an empty collection; the nonempty
result is kept as the list of per-file frames. -/
def performance_metrics_from_folder (files : List String) (load : String → PredTable)
    (use_id_col : Bool) (id2label : Option (List (ℤ × String))) (to_wide : Bool) :
    Except String (List MetricsDF) := do
  let dfs ← files.mapM (fun p =>
    performance_metrics_from_file p load use_id_col id2label to_wide)
  match dfs with
  | [] => Except.error "No objects to concatenate"
  | _ => Except.ok dfs

/- ## Statement-side definitions -/

/-- Number of score cells (rows) in a score column. -/
def scoresLen : ScoreCol → ℕ
  | .floats xs => xs.length
  | .vecs vs => vs.length

/-- Number of label cells (rows) in a label column. -/
def labelsLen : LabelCol → ℕ
  | .ints ls => ls.length
  | .strs ls => ls.length

/-- All probability vectors of the column share the length of the first one. -/
def uniformScores : ScoreCol → Prop
  | .floats _ => True
  | .vecs vs => ∀ v ∈ vs, v.length = (vs.headD []).length

instance : (s : ScoreCol) → Decidable (uniformScores s)
  | .floats _ => Decidable.isTrue trivial
  | .vecs vs => inferInstanceAs (Decidable (∀ v ∈ vs, v.length = (vs.headD []).length))

/-- The binary-classification signal of the spec: scalar float scores, or
probability vectors of length exactly 2. -/
def binaryShaped : ScoreCol → Prop
  | .floats _ => True
  | .vecs vs => (vs.headD []).length = 2

instance : (s : ScoreCol) → Decidable (binaryShaped s)
  | .floats _ => Decidable.isTrue trivial
  | .vecs vs => inferInstanceAs (Decidable ((vs.headD []).length = 2))

/-- The string contains no `'-'` (true of every level tag and score type). -/
def noDash (s : String) : Prop := ∀ c ∈ s.data, c ≠ '-'

instance : (s : String) → Decidable (noDash s) := fun s =>
  inferInstanceAs (Decidable (∀ c ∈ s.data, c ≠ '-'))

/-- Value of the wide-layout column with the given name (first match). -/
def wideLookup (df : MetricsDF) (name : String) : Option MetricVal :=
  match df with
  | .wide cols => (cols.find? (fun kv => decide (kv.1 = name))).map (·.2)
  | .long _ => none

/-- Value of the first long-layout row with the given level, score type and
class. -/
def longLookup (df : MetricsDF) (lv : Option String) (st cls : String) :
    Option MetricVal :=
  match df with
  | .long rows =>
      (rows.find? (fun r =>
        decide (r.level = lv ∧ r.score_type = st ∧ r.cls = cls))).map (·.value)
  | .wide _ => none

/-- The score-type component a reader parses out of a wide column name,
given whether a level tag is present. -/
def scoreTypeOfName (lv : Option String) (k : String) : String :=
  match lv with
  | some _ => (pySplit2 k).2.1
  | none => (pySplit1 k).1

/-- Number of AUC entries of a metrics frame. -/
def dfAucCount (lv : Option String) : MetricsDF → ℕ
  | .long rows => rows.countP (fun r => decide (r.score_type = "auc"))
  | .wide cols => cols.countP (fun kv => decide (scoreTypeOfName lv kv.1 = "auc"))

/-- The last entry of the frame is the overall AUC entry (the merge appends
the AUC column / row after the other metrics). -/
def dfLastOverallAuc (lv : Option String) : MetricsDF → Prop
  | .long rows => ∃ q, rows.getLast? = some ⟨lv, "overall", "auc", MetricVal.num q⟩
  | .wide cols => ∃ q, cols.getLast? = some (tagKey lv "auc-overall", MetricVal.num q)

/-- A metric name of the record: a dash-free score type (never `"auc"`),
a dash, and the class part. -/
def SplitKeySpec (k : String) : Prop :=
  ∃ st cls, noDash st ∧ st ≠ "auc" ∧ k = st ++ "-" ++ cls

/-- The long row obtained by melting one tagged record entry. -/
def longRowOfTagged (lv : Option String) (kv : String × MetricVal) : LongRow :=
  match lv with
  | some _ =>
      let s := pySplit2 (tagKey lv kv.1)
      ⟨some s.1, s.2.2, s.2.1, kv.2⟩
  | none =>
      let s := pySplit1 kv.1
      ⟨none, s.2, s.1, kv.2⟩

/-- Layout of an untagged record: tag the names (wide) or melt (long). -/
def formatDF (lv : Option String) (to_wide : Bool) (R : List (String × MetricVal)) :
    MetricsDF :=
  if to_wide then .wide (R.map (fun kv => (tagKey lv kv.1, kv.2)))
  else .long (R.map (longRowOfTagged lv))

/-- The record computed by `_evaluate_single_model` before any layout
choice: the metric entries, and the appended AUC entry on the binary path. -/
def evalRecordE (df : PredTable) (aggregate_by_id : Bool)
    (id2label : Option (List (ℤ × String))) :
    Except String (List (String × MetricVal)) := do
  let t ← if aggregate_by_id then aggregate_predictions df else Except.ok df
  let predictions ← predictionsOf t.scores id2label
  let labels := lblColToLbls t.labels
  let base := pyPerformanceRecord labels predictions
  let isBin ← binaryShapedHead t.scores
  if isBin then do
    let label2id := if pyTruthy id2label then some (pyInvert (id2label.getD [])) else none
    let label_int ← labels_to_int t.labels label2id
    Except.ok (base ++
      [("auc-overall", MetricVal.num (roc_auc_score label_int (scores_to_probs t.scores)))])
  else Except.ok base

/-- The levelled record computed by `performance_metrics_from_df`: the
row-level record tagged `"row"` followed by the id-level record tagged
`"id"` when an id column is supplied, the bare record otherwise. -/
def fromDfRecordE (df : PredTable) (use_id_col : Bool)
    (id2label : Option (List (ℤ × String))) :
    Except String (List (Option String × String × MetricVal)) := do
  let r0 ← evalRecordE df false id2label
  if use_id_col then do
    let r1 ← evalRecordE df true id2label
    Except.ok (r0.map (fun kv => (some "row", kv.1, kv.2))
      ++ r1.map (fun kv => (some "id", kv.1, kv.2)))
  else Except.ok (r0.map (fun kv => ((none : Option String), kv.1, kv.2)))

/-- The long row obtained from one levelled record entry. -/
def longRowOfEntry (e : Option String × String × MetricVal) : LongRow :=
  match e.1 with
  | some p =>
      let s := pySplit2 (p ++ "-" ++ e.2.1)
      ⟨some s.1, s.2.2, s.2.1, e.2.2⟩
  | none =>
      let s := pySplit1 e.2.1
      ⟨none, s.2, s.1, e.2.2⟩

/-- Layout of a levelled record. -/
def formatEntries (to_wide : Bool)
    (R : List (Option String × String × MetricVal)) : MetricsDF :=
  if to_wide then .wide (R.map (fun e => (tagKey e.1 e.2.1, e.2.2)))
  else .long (R.map longRowOfEntry)

/-- First index holding `k` (`Series.unique()[0]` picks the value there). -/
def firstIdxOf (ids : List ℤ) (k : ℤ) : ℕ :=
  ids.findIdx (fun a => decide (a = k))

/-- The label of row `i` as a label value. -/
def labelAtD (t : PredTable) (i : ℕ) : Lbl :=
  match t.labels with
  | .ints ls => .i (ls.getD i 0)
  | .strs ls => .s (ls.getD i "")

/-- Extract the payload of a successful computation (default on error);
used to name concrete evaluation results in closed statements. -/
def extractOk {ε α : Type} (e : Except ε α) (d : α) : α :=
  match e with
  | .ok x => x
  | .error _ => d

instance {ε α : Type} [DecidableEq ε] [DecidableEq α] : DecidableEq (Except ε α) :=
  fun x y =>
    match x, y with
    | .error e, .error e2 =>
        if h : e = e2 then Decidable.isTrue (by rw [h])
        else Decidable.isFalse (fun hc => h (by injection hc))
    | .ok a, .ok b =>
        if h : a = b then Decidable.isTrue (by rw [h])
        else Decidable.isFalse (fun hc => h (by injection hc))
    | .error _, .ok _ => Decidable.isFalse (fun hc => Except.noConfusion hc)
    | .ok _, .error _ => Decidable.isFalse (fun hc => Except.noConfusion hc)

/- ## Toolbox lemmas -/

theorem mem_pyUniqueAux {α : Type} [DecidableEq α] (l : List α) :
    ∀ (seen : List α) (x : α), x ∈ pyUniqueAux seen l ↔ x ∈ l ∧ x ∉ seen := by
  induction l with
  | nil => intro seen x; simp [pyUniqueAux]
  | cons a t ih =>
    intro seen x
    by_cases ha : a ∈ seen
    · rw [pyUniqueAux, if_pos ha, ih]
      constructor
      · rintro ⟨hx, hs⟩; exact ⟨List.mem_cons_of_mem _ hx, hs⟩
      · rintro ⟨hx, hs⟩
        rcases List.mem_cons.mp hx with h | h
        · exact absurd (h ▸ ha) hs
        · exact ⟨h, hs⟩
    · rw [pyUniqueAux, if_neg ha]
      constructor
      · intro hx
        rcases List.mem_cons.mp hx with h | h
        · subst h; exact ⟨List.mem_cons_self _ _, ha⟩
        · have h2 := (ih _ _).mp h
          exact ⟨List.mem_cons_of_mem _ h2.1, fun hs => h2.2 (List.mem_cons_of_mem _ hs)⟩
      · rintro ⟨hx, hs⟩
        rcases List.mem_cons.mp hx with h | h
        · subst h; exact List.mem_cons_self _ _
        · by_cases hxa : x = a
          · subst hxa; exact List.mem_cons_self _ _
          · have hnot : x ∉ a :: seen := by
              intro hmem
              rcases List.mem_cons.mp hmem with h2 | h2
              · exact hxa h2
              · exact hs h2
            exact List.mem_cons_of_mem _ ((ih _ _).mpr ⟨h, hnot⟩)

theorem mem_pyUnique {α : Type} [DecidableEq α] (l : List α) (x : α) :
    x ∈ pyUnique l ↔ x ∈ l := by
  unfold pyUnique; rw [mem_pyUniqueAux]; simp

theorem pyUniqueAux_nodup {α : Type} [DecidableEq α] (l : List α) :
    ∀ seen, (pyUniqueAux seen l).Nodup := by
  induction l with
  | nil => intro seen; simp [pyUniqueAux]
  | cons a t ih =>
    intro seen
    by_cases ha : a ∈ seen
    · rw [pyUniqueAux, if_pos ha]; exact ih seen
    · rw [pyUniqueAux, if_neg ha]
      refine List.nodup_cons.mpr ⟨?_, ih _⟩
      intro hmem
      exact ((mem_pyUniqueAux t _ a).mp hmem).2 (List.mem_cons_self _ _)

theorem pyUnique_nodup {α : Type} [DecidableEq α] (l : List α) : (pyUnique l).Nodup :=
  pyUniqueAux_nodup l []

theorem pyUniqueAux_eq_self {α : Type} [DecidableEq α] (l : List α) :
    ∀ seen, l.Nodup → (∀ x ∈ l, x ∉ seen) → pyUniqueAux seen l = l := by
  induction l with
  | nil => intro seen _ _; rfl
  | cons a t ih =>
    intro seen hnd hdis
    have ha : a ∉ seen := hdis a (List.mem_cons_self _ _)
    rw [pyUniqueAux, if_neg ha]
    congr 1
    refine ih _ (List.nodup_cons.mp hnd).2 ?_
    intro x hx hmem
    rcases List.mem_cons.mp hmem with h | h
    · exact (List.nodup_cons.mp hnd).1 (h ▸ hx)
    · exact hdis x (List.mem_cons_of_mem _ hx) h

theorem pyUnique_eq_self {α : Type} [DecidableEq α] {l : List α} (h : l.Nodup) :
    pyUnique l = l :=
  pyUniqueAux_eq_self l [] h (by simp)

theorem pyUniqueAux_eq_nil {α : Type} [DecidableEq α] (l : List α) :
    ∀ seen, (∀ x ∈ l, x ∈ seen) → pyUniqueAux seen l = [] := by
  induction l with
  | nil => intro _ _; rfl
  | cons a t ih =>
    intro seen h
    rw [pyUniqueAux, if_pos (h a (List.mem_cons_self _ _))]
    exact ih seen (fun x hx => h x (List.mem_cons_of_mem _ hx))

theorem pyUnique_eq_nil_iff {α : Type} [DecidableEq α] (l : List α) :
    pyUnique l = [] ↔ l = [] := by
  cases l with
  | nil => simp [pyUnique, pyUniqueAux]
  | cons a t =>
    constructor
    · intro h
      have := (mem_pyUnique (a :: t) a).mpr (List.mem_cons_self _ _)
      rw [h] at this
      exact absurd this (List.not_mem_nil a)
    · intro h; exact absurd h (List.cons_ne_nil a t)

theorem headD_pyUnique {α : Type} [DecidableEq α] (l : List α) (d : α) :
    (pyUnique l).headD d = l.headD d := by
  cases l with
  | nil => rfl
  | cons a t => simp [pyUnique, pyUniqueAux]

theorem pyUnique_all_eq {α : Type} [DecidableEq α] {l : List α} {v : α}
    (h : pyUnique l = [v]) : ∀ x ∈ l, x = v := by
  intro x hx
  have h2 := (mem_pyUnique l x).mpr hx
  rw [h] at h2
  simpa using h2

theorem pyUnique_singleton_of_all_eq {α : Type} [DecidableEq α] (a : α) (t : List α)
    (h : ∀ x ∈ t, x = a) : pyUnique (a :: t) = [a] := by
  unfold pyUnique
  rw [pyUniqueAux, if_neg (List.not_mem_nil a)]
  congr 1
  exact pyUniqueAux_eq_nil t [a] (fun x hx => by rw [h x hx]; exact List.mem_cons_self _ _)

theorem except_bind_ok {ε α β : Type} (x : Except ε α) (k : α → Except ε β) (c : β) :
    (x >>= k) = Except.ok c ↔ ∃ b, x = Except.ok b ∧ k b = Except.ok c := by
  cases x with
  | error e =>
    constructor
    · intro h; exact Except.noConfusion h
    · rintro ⟨b, hb, _⟩; exact Except.noConfusion hb
  | ok a =>
    constructor
    · intro h; exact ⟨a, rfl, h⟩
    · rintro ⟨b, hb, hk⟩
      injection hb with h2
      rw [h2]
      exact hk

theorem except_map_ok {ε α β : Type} (x : Except ε α) (f : α → β) (c : β) :
    x.map f = Except.ok c ↔ ∃ b, x = Except.ok b ∧ f b = c := by
  cases x with
  | error e =>
    constructor
    · intro h; exact Except.noConfusion h
    · rintro ⟨b, hb, _⟩; exact Except.noConfusion hb
  | ok a =>
    constructor
    · intro h
      injection h with h2
      exact ⟨a, rfl, h2⟩
    · rintro ⟨b, hb, hf⟩
      injection hb with h2
      show Except.ok (f a) = Except.ok c
      rw [h2, hf]

theorem exceptMapM_ok_of_forall {α β : Type} (f : α → Except String β) (g : α → β) :
    ∀ (l : List α), (∀ a ∈ l, f a = Except.ok (g a)) →
      l.mapM f = Except.ok (l.map g) := by
  intro l
  induction l with
  | nil => intro _; rfl
  | cons a t ih =>
    intro h
    rw [List.mapM_cons, h a (List.mem_cons_self _ _),
      ih (fun x hx => h x (List.mem_cons_of_mem _ hx))]
    rfl

theorem exceptMapM_error_of_exists {α β : Type} (f : α → Except String β) :
    ∀ (l : List α), (∃ a ∈ l, ∃ e, f a = Except.error e) →
      ∃ e2, l.mapM f = Except.error e2 := by
  intro l
  induction l with
  | nil => rintro ⟨a, ha, _⟩; exact absurd ha (List.not_mem_nil a)
  | cons a t ih =>
    rintro ⟨b, hb, e, he⟩
    rw [List.mapM_cons]
    cases hfa : f a with
    | error e2 => exact ⟨e2, rfl⟩
    | ok v =>
      rcases List.mem_cons.mp hb with h | h
      · rw [h, hfa] at he; exact Except.noConfusion he
      · obtain ⟨e3, h3⟩ := ih ⟨b, h, e, he⟩
        refine ⟨e3, ?_⟩
        show (t.mapM f >>= fun bs => pure (v :: bs)) = _
        rw [h3]
        rfl

theorem mapM_ok_getD {α β : Type} (f : α → Except String β) :
    ∀ (l : List α) (ms : List β), l.mapM f = Except.ok ms →
      ms.length = l.length ∧
        ∀ i (d : α) (d2 : β), i < l.length → f (l.getD i d) = Except.ok (ms.getD i d2) := by
  intro l
  induction l with
  | nil =>
    intro ms h
    rw [List.mapM_nil] at h
    injection h with h2
    rw [← h2]
    exact ⟨rfl, fun i d d2 hi => absurd hi (Nat.not_lt_zero i)⟩
  | cons a t ih =>
    intro ms h
    rw [List.mapM_cons, except_bind_ok] at h
    obtain ⟨b, hb, h2⟩ := h
    rw [except_bind_ok] at h2
    obtain ⟨bs, hbs, h3⟩ := h2
    injection h3 with h4
    rw [← h4]
    obtain ⟨hlen, hget⟩ := ih bs hbs
    refine ⟨by simp [hlen], ?_⟩
    intro i d d2 hi
    cases i with
    | zero => simpa using hb
    | succ n => simpa using hget n d d2 (Nat.lt_of_succ_lt_succ hi)

theorem mapM_ok_of_getD {α β : Type} (f : α → Except String β) :
    ∀ (l : List α) (ms : List β) (d : α) (d2 : β), l.length = ms.length →
      (∀ i, i < l.length → f (l.getD i d) = Except.ok (ms.getD i d2)) →
      l.mapM f = Except.ok ms := by
  intro l
  induction l with
  | nil =>
    intro ms d d2 h _
    cases ms with
    | nil => rfl
    | cons b bs => exact absurd h (by simp)
  | cons a t ih =>
    intro ms d d2 h hp
    cases ms with
    | nil => exact absurd h (by simp)
    | cons b bs =>
      have h0 := hp 0 (Nat.succ_pos _)
      simp only [List.getD_cons_zero] at h0
      rw [List.mapM_cons, h0, ih bs d d2 (by simpa using h)
        (fun i hi => by simpa using hp (i + 1) (Nat.succ_lt_succ hi))]
      rfl

theorem getD_map_of_lt {α β : Type} (f : α → β) :
    ∀ (l : List α) (i : ℕ), i < l.length → ∀ (d : β) (d0 : α),
      (l.map f).getD i d = f (l.getD i d0) := by
  intro l
  induction l with
  | nil => intro i h; exact absurd h (Nat.not_lt_zero i)
  | cons a t ih =>
    intro i h d d0
    cases i with
    | zero => rfl
    | succ n => simpa using ih n (Nat.lt_of_succ_lt_succ h) d d0

theorem range_map_getD {α : Type} (v : List α) (d : α) :
    (List.range v.length).map (fun j => v.getD j d) = v := by
  induction v with
  | nil => rfl
  | cons a t ih =>
    rw [List.length_cons, List.range_succ_eq_map, List.map_cons, List.map_map]
    have h2 : ((fun j => (a :: t).getD j d) ∘ (· + 1)) = fun j => t.getD j d := by
      funext j; simp
    rw [h2, ih]
    rfl

theorem map_eq_of_getD {α β : Type} (f : α → β) :
    ∀ (l : List α) (xs : List β) (d : α) (d2 : β), l.length = xs.length →
      (∀ i, i < l.length → f (l.getD i d) = xs.getD i d2) → l.map f = xs := by
  intro l
  induction l with
  | nil =>
    intro xs d d2 h _
    cases xs with
    | nil => rfl
    | cons b bs => exact absurd h (by simp)
  | cons a t ih =>
    intro xs d d2 h hp
    cases xs with
    | nil => exact absurd h (by simp)
    | cons b bs =>
      have h0 := hp 0 (Nat.succ_pos _)
      simp only [List.getD_cons_zero] at h0
      rw [List.map_cons, h0]
      congr 1
      exact ih bs d d2 (by simpa using h)
        (fun i hi => by simpa using hp (i + 1) (Nat.succ_lt_succ hi))

theorem groupVals_cons_pos {α : Type} (a : ℤ) (ids : List ℤ) (x : α) (xs : List α)
    (k : ℤ) (h : a = k) :
    groupVals (a :: ids) (x :: xs) k = x :: groupVals ids xs k := by
  unfold groupVals
  simp [h]

theorem groupVals_cons_neg {α : Type} (a : ℤ) (ids : List ℤ) (x : α) (xs : List α)
    (k : ℤ) (h : ¬ a = k) :
    groupVals (a :: ids) (x :: xs) k = groupVals ids xs k := by
  unfold groupVals
  simp [h]

theorem groupVals_eq_nil_of_not_mem {α : Type} :
    ∀ (ids : List ℤ) (xs : List α) (k : ℤ), k ∉ ids → groupVals ids xs k = [] := by
  intro ids
  induction ids with
  | nil => intro xs k _; cases xs <;> rfl
  | cons a t ih =>
    intro xs k h
    cases xs with
    | nil => rfl
    | cons x xs2 =>
      have hak : ¬ a = k := fun he => h (he ▸ List.mem_cons_self a t)
      rw [groupVals_cons_neg _ _ _ _ _ hak]
      exact ih xs2 k (fun hk => h (List.mem_cons_of_mem _ hk))

theorem groupVals_sub {α : Type} (ids : List ℤ) (xs : List α) (k : ℤ) (v : α)
    (hv : v ∈ groupVals ids xs k) : v ∈ xs := by
  unfold groupVals at hv
  obtain ⟨p, hp, hv2⟩ := List.mem_map.mp hv
  obtain ⟨p1, p2⟩ := p
  have hz := (List.mem_filter.mp hp).1
  rw [← hv2]
  exact (List.of_mem_zip hz).2

theorem groupVals_ne_nil {α : Type} :
    ∀ (ids : List ℤ) (xs : List α) (k : ℤ), ids.length = xs.length → k ∈ ids →
      groupVals ids xs k ≠ [] := by
  intro ids
  induction ids with
  | nil => intro xs k _ h; exact absurd h (List.not_mem_nil k)
  | cons a t ih =>
    intro xs k hlen hk
    cases xs with
    | nil => exact absurd hlen (by simp)
    | cons x xs2 =>
      by_cases hak : a = k
      · rw [groupVals_cons_pos _ _ _ _ _ hak]; exact List.cons_ne_nil _ _
      · rw [groupVals_cons_neg _ _ _ _ _ hak]
        refine ih xs2 k (by simpa using hlen) ?_
        rcases List.mem_cons.mp hk with h | h
        · exact absurd h.symm hak
        · exact h

theorem groupVals_head_first {α : Type} :
    ∀ (ids : List ℤ) (xs : List α) (k : ℤ) (d : α),
      ids.length = xs.length → k ∈ ids →
      (groupVals ids xs k).headD d = xs.getD (firstIdxOf ids k) d
      ∧ firstIdxOf ids k < ids.length
      ∧ ids.getD (firstIdxOf ids k) 0 = k
      ∧ ∀ j, j < firstIdxOf ids k → ids.getD j 0 ≠ k := by
  intro ids
  induction ids with
  | nil => intro xs k d _ hk; exact absurd hk (List.not_mem_nil k)
  | cons a t ih =>
    intro xs k d hlen hk
    cases xs with
    | nil => exact absurd hlen (by simp)
    | cons x xs2 =>
      by_cases hak : a = k
      · have hidx : firstIdxOf (a :: t) k = 0 := by
          unfold firstIdxOf
          rw [List.findIdx_cons]
          simp [hak]
        rw [groupVals_cons_pos _ _ _ _ _ hak, hidx]
        exact ⟨rfl, Nat.succ_pos _, by simpa using hak,
          fun j hj => absurd hj (Nat.not_lt_zero j)⟩
      · have hkt : k ∈ t := by
          rcases List.mem_cons.mp hk with h | h
          · exact absurd h.symm hak
          · exact h
        have hidx : firstIdxOf (a :: t) k = firstIdxOf t k + 1 := by
          unfold firstIdxOf
          rw [List.findIdx_cons]
          simp [hak]
        obtain ⟨h1, h2, h3, h4⟩ := ih xs2 k d (by simpa using hlen) hkt
        rw [groupVals_cons_neg _ _ _ _ _ hak, hidx]
        refine ⟨by simpa using h1, Nat.succ_lt_succ h2, by simpa using h3, ?_⟩
        intro j hj
        cases j with
        | zero => simpa using hak
        | succ n => simpa using h4 n (Nat.lt_of_succ_lt_succ hj)

theorem groupVals_singleton {α : Type} :
    ∀ (ids : List ℤ) (xs : List α) (i : ℕ) (d : α),
      ids.Nodup → ids.length = xs.length → i < ids.length →
      groupVals ids xs (ids.getD i 0) = [xs.getD i d] := by
  intro ids
  induction ids with
  | nil => intro xs i d _ _ h; exact absurd h (Nat.not_lt_zero i)
  | cons a t ih =>
    intro xs i d hnd hlen hi
    cases xs with
    | nil => exact absurd hlen (by simp)
    | cons x xs2 =>
      have hnd2 := List.nodup_cons.mp hnd
      cases i with
      | zero =>
        rw [List.getD_cons_zero, groupVals_cons_pos _ _ _ _ _ rfl, List.getD_cons_zero,
          groupVals_eq_nil_of_not_mem t xs2 a hnd2.1]
      | succ n =>
        have hn : n < t.length := Nat.lt_of_succ_lt_succ hi
        have hmem : t.getD n 0 ∈ t := by
          rw [List.getD_eq_getElem t 0 hn]
          exact List.getElem_mem hn
        have hak : ¬ a = t.getD n 0 := fun he => hnd2.1 (he ▸ hmem)
        rw [List.getD_cons_succ, List.getD_cons_succ,
          groupVals_cons_neg _ _ _ _ _ (by simpa using hak)]
        exact ih xs2 n d hnd2.2 (by simpa using hlen) hn

theorem mem_sortedKeys (l : List ℤ) (x : ℤ) : x ∈ sortedKeys l ↔ x ∈ l := by
  unfold sortedKeys
  rw [(List.perm_insertionSort _ _).mem_iff]
  exact mem_pyUnique l x

theorem sortedKeys_nodup (l : List ℤ) : (sortedKeys l).Nodup :=
  (List.perm_insertionSort _ _).nodup_iff.mpr (pyUnique_nodup l)

theorem sortedKeys_sorted (l : List ℤ) : List.Sorted (· ≤ ·) (sortedKeys l) :=
  List.sorted_insertionSort _ _

theorem sortedKeys_eq_self {l : List ℤ} (h1 : l.Nodup)
    (h2 : List.Sorted (· ≤ ·) l) : sortedKeys l = l := by
  unfold sortedKeys
  rw [pyUnique_eq_self h1]
  exact h2.insertionSort_eq

theorem sortedKeys_ne_nil {l : List ℤ} (h : l ≠ []) : sortedKeys l ≠ [] := by
  cases l with
  | nil => exact absurd rfl h
  | cons a t =>
    intro h2
    have h3 := (mem_sortedKeys (a :: t) a).mpr (List.mem_cons_self _ _)
    rw [h2] at h3
    exact List.not_mem_nil a h3

/- ## C7: file-extension check -/

/-- C7: for every path whose suffix is not `".jsonl"`, the file-based entry
point fails with the value error immediately, independently of the file
contents (the loader oracle is never consulted), and no metrics result is
produced. -/
theorem from_file_rejects_non_jsonl (path : String) (load : String → PredTable)
    (use_id_col : Bool) (id2label : Option (List (ℤ × String))) (to_wide : Bool)
    (h : pathSuffixOf path ≠ ".jsonl") :
    performance_metrics_from_file path load use_id_col id2label to_wide =
      Except.error ("Only .jsonl files are supported for import, not " ++ pathSuffixOf path) := by
  unfold performance_metrics_from_file
  rw [if_neg h]

/-- C7 witness: a `.csv` path is rejected with the value error. -/
theorem from_file_rejects_non_jsonl_witness :
    pathSuffixOf "model_preds.csv" = ".csv" ∧
    performance_metrics_from_file "model_preds.csv" (fun _ => ⟨[], .floats [], .ints []⟩)
        false none false =
      Except.error "Only .jsonl files are supported for import, not .csv" := by
  refine ⟨by decide, ?_⟩
  have h := from_file_rejects_non_jsonl "model_preds.csv" (fun _ => ⟨[], .floats [], .ints []⟩)
    false none false (by decide)
  rw [h]
  decide

/- ## C10: empty glob in the folder entry point -/

/-- C10: the folder-based entry point on an empty glob-match list fails with
the concatenation error rather than returning an empty metrics table. -/
theorem from_folder_empty_glob_errors (load : String → PredTable)
    (use_id_col : Bool) (id2label : Option (List (ℤ × String))) (to_wide : Bool) :
    performance_metrics_from_folder [] load use_id_col id2label to_wide =
      Except.error "No objects to concatenate" := rfl

/- ## C8: label normalization -/

/-- C8: label normalization passes integer-typed label columns through
unchanged; a string-typed column is mapped element-wise through the inversion
of the supplied index-to-label mapping, succeeding with exactly the mapped
values when every label has an entry and failing with a lookup error (never a
silent default) when some label has none. -/
theorem labels_to_int_passthrough_or_mapped :
    (∀ (ls : List ℤ) (d : Option (List (String × ℤ))),
      labels_to_int (.ints ls) d = Except.ok ls)
    ∧ (∀ (m : List (ℤ × String)) (ss : List String),
        ((∀ s ∈ ss, (pyLookup (pyInvert m) s).isSome = true) →
          labels_to_int (.strs ss) (some (pyInvert m)) =
            Except.ok (ss.map (fun s => (pyLookup (pyInvert m) s).getD 0)))
        ∧ ((∃ s ∈ ss, pyLookup (pyInvert m) s = none) →
          ∃ e, labels_to_int (.strs ss) (some (pyInvert m)) = Except.error e)) := by
  constructor
  · intro ls d; rfl
  · intro m ss
    constructor
    · intro hall
      show ss.mapM _ = _
      apply exceptMapM_ok_of_forall
      intro s hs
      obtain ⟨k, hk⟩ := Option.isSome_iff_exists.mp (hall s hs)
      rw [hk]
      rfl
    · rintro ⟨s, hs, hnone⟩
      apply exceptMapM_error_of_exists
      refine ⟨s, hs, "KeyError: " ++ s, ?_⟩
      rw [hnone]

/-- C8 witness: `{0: "TD", 1: "DEPR"}` inverted maps `["DEPR", "TD"]` to
`[1, 0]`, and the unmapped label `"ASD"` produces a lookup error. -/
theorem labels_to_int_passthrough_or_mapped_witness :
    labels_to_int (.strs ["DEPR", "TD"]) (some (pyInvert [(0, "TD"), (1, "DEPR")])) =
      Except.ok [1, 0] := by
  have h := ((labels_to_int_passthrough_or_mapped).2 [(0, "TD"), (1, "DEPR")]
    ["DEPR", "TD"]).1 (by decide)
  rw [h]
  rfl

/- ## C4: divergent labels within an id group -/

theorem aggregate_ok_parts (tids : List ℤ) (tsc : ScoreCol) (tlb : LabelCol)
    (u : PredTable)
    (hok : aggregate_predictions ⟨tids, tsc, tlb⟩ = Except.ok u) :
    u.ids = sortedKeys tids
    ∧ (∀ ls, tlb = .ints ls → u.labels = .ints ((sortedKeys tids).map
        (fun k => get_first_entry (groupVals tids ls k))))
    ∧ (∀ ls, tlb = .strs ls → u.labels = .strs ((sortedKeys tids).map
        (fun k => get_first_entry (groupVals tids ls k))))
    ∧ (∀ xs, tsc = .floats xs → u.scores = .floats ((sortedKeys tids).map
        (fun k => floatMean (groupVals tids xs k))))
    ∧ (∀ vs, tsc = .vecs vs → ∃ ms,
        (sortedKeys tids).mapM (fun k => vecMean (groupVals tids vs k)) = Except.ok ms
        ∧ u.scores = .vecs ms)
    ∧ scoresLen u.scores = (sortedKeys tids).length
    ∧ labelsLen u.labels = (sortedKeys tids).length := by
  cases tsc with
  | floats xs =>
    cases tlb with
    | ints ls =>
      unfold aggregate_predictions at hok
      dsimp only at hok
      injection hok with h
      rw [← h]
      refine ⟨rfl, ?_, ?_, ?_, ?_, by simp [scoresLen], by simp [labelsLen]⟩
      · intro ls2 hl; injection hl with h2; rw [← h2]
      · intro ls2 hl; exact absurd hl (fun hc => LabelCol.noConfusion hc)
      · intro xs2 hx; injection hx with h2; rw [← h2]
      · intro vs2 hv; exact absurd hv (fun hc => ScoreCol.noConfusion hc)
    | strs ls =>
      unfold aggregate_predictions at hok
      dsimp only at hok
      injection hok with h
      rw [← h]
      refine ⟨rfl, ?_, ?_, ?_, ?_, by simp [scoresLen], by simp [labelsLen]⟩
      · intro ls2 hl; exact absurd hl (fun hc => LabelCol.noConfusion hc)
      · intro ls2 hl; injection hl with h2; rw [← h2]
      · intro xs2 hx; injection hx with h2; rw [← h2]
      · intro vs2 hv; exact absurd hv (fun hc => ScoreCol.noConfusion hc)
  | vecs vs =>
    cases tlb with
    | ints ls =>
      unfold aggregate_predictions at hok
      dsimp only at hok
      rw [except_map_ok] at hok
      obtain ⟨ms, hms, h2⟩ := hok
      rw [← h2]
      refine ⟨rfl, ?_, ?_, ?_, ?_,
        by simp [scoresLen, (mapM_ok_getD _ _ _ hms).1], by simp [labelsLen]⟩
      · intro ls2 hl; injection hl with h3; rw [← h3]
      · intro ls2 hl; exact absurd hl (fun hc => LabelCol.noConfusion hc)
      · intro xs2 hx; exact absurd hx (fun hc => ScoreCol.noConfusion hc)
      · intro vs2 hv; injection hv with h3; rw [← h3]; exact ⟨ms, hms, rfl⟩
    | strs ls =>
      unfold aggregate_predictions at hok
      dsimp only at hok
      rw [except_map_ok] at hok
      obtain ⟨ms, hms, h2⟩ := hok
      rw [← h2]
      refine ⟨rfl, ?_, ?_, ?_, ?_,
        by simp [scoresLen, (mapM_ok_getD _ _ _ hms).1], by simp [labelsLen]⟩
      · intro ls2 hl; exact absurd hl (fun hc => LabelCol.noConfusion hc)
      · intro ls2 hl; injection hl with h3; rw [← h3]
      · intro xs2 hx; exact absurd hx (fun hc => ScoreCol.noConfusion hc)
      · intro vs2 hv; injection hv with h3; rw [← h3]; exact ⟨ms, hms, rfl⟩

/-- C4 counterexample: on a table whose single id group carries the two
distinct ground-truth labels `"A"` and `"B"`, per-id aggregation does not
raise any error — it returns a table holding the group's first label. -/
theorem aggregate_divergent_labels_silently_first :
    aggregate_predictions ⟨[7, 7], .floats [1, 1], .strs ["A", "B"]⟩ =
      Except.ok ⟨[7], .floats [1], .strs ["A"]⟩ := by
  have h1 : floatMean (groupVals [7, 7] [(1 : ℚ), 1] 7) = 1 := by
    norm_num [floatMean, groupVals]
  have h0 : aggregate_predictions ⟨[7, 7], .floats [1, 1], .strs ["A", "B"]⟩ =
      Except.ok ⟨[7], .floats [floatMean (groupVals [7, 7] [(1 : ℚ), 1] 7)], .strs ["A"]⟩ := rfl
  rw [h0, h1]

/-- C4 (amended): during per-id aggregation, a group whose ground-truth
labels disagree is not detected: the aggregation succeeds and the output
label of each id is the label of the first input row carrying that id. -/
theorem aggregate_takes_first_label (t u : PredTable)
    (hok : aggregate_predictions t = Except.ok u)
    (hLab : labelsLen t.labels = t.ids.length) :
    ∀ i, i < u.ids.length →
      labelAtD u i = labelAtD t (firstIdxOf t.ids (u.ids.getD i 0))
      ∧ firstIdxOf t.ids (u.ids.getD i 0) < t.ids.length
      ∧ t.ids.getD (firstIdxOf t.ids (u.ids.getD i 0)) 0 = u.ids.getD i 0
      ∧ ∀ j, j < firstIdxOf t.ids (u.ids.getD i 0) → t.ids.getD j 0 ≠ u.ids.getD i 0 := by
  obtain ⟨tids, tsc, tlb⟩ := t
  obtain ⟨hids, hlabI, hlabS, _, _, _, _⟩ := aggregate_ok_parts tids tsc tlb u hok
  intro i hi
  have hklen : i < (sortedKeys tids).length := by rw [← hids]; exact hi
  have hk : u.ids.getD i 0 ∈ tids := by
    rw [hids, List.getD_eq_getElem _ 0 hklen]
    exact (mem_sortedKeys _ _).mp (List.getElem_mem hklen)
  have hgd : (sortedKeys tids).getD i 0 = u.ids.getD i 0 := by rw [hids]
  cases tlb with
  | ints ls =>
    have hlabels := hlabI ls rfl
    have hll : tids.length = ls.length := by
      show tids.length = labelsLen (LabelCol.ints ls)
      exact hLab.symm
    obtain ⟨h1, h2, h3, h4⟩ := groupVals_head_first tids ls (u.ids.getD i 0) 0 hll hk
    refine ⟨?_, h2, h3, h4⟩
    have hLa : labelAtD u i = Lbl.i (((sortedKeys tids).map
        (fun k => get_first_entry (groupVals tids ls k))).getD i 0) := by
      unfold labelAtD
      rw [hlabels]
    rw [hLa, getD_map_of_lt _ _ _ hklen _ 0, hgd]
    show Lbl.i (get_first_entry (groupVals tids ls (u.ids.getD i 0))) =
      Lbl.i (ls.getD (firstIdxOf tids (u.ids.getD i 0)) 0)
    unfold get_first_entry
    rw [headD_pyUnique]
    show Lbl.i ((groupVals tids ls (u.ids.getD i 0)).headD 0) = _
    rw [h1]
  | strs ls =>
    have hlabels := hlabS ls rfl
    have hll : tids.length = ls.length := by
      show tids.length = labelsLen (LabelCol.strs ls)
      exact hLab.symm
    obtain ⟨h1, h2, h3, h4⟩ := groupVals_head_first tids ls (u.ids.getD i 0) "" hll hk
    refine ⟨?_, h2, h3, h4⟩
    have hLa : labelAtD u i = Lbl.s (((sortedKeys tids).map
        (fun k => get_first_entry (groupVals tids ls k))).getD i "") := by
      unfold labelAtD
      rw [hlabels]
    rw [hLa, getD_map_of_lt _ _ _ hklen _ 0, hgd]
    show Lbl.s (get_first_entry (groupVals tids ls (u.ids.getD i 0))) =
      Lbl.s (ls.getD (firstIdxOf tids (u.ids.getD i 0)) "")
    unfold get_first_entry
    rw [headD_pyUnique]
    show Lbl.s ((groupVals tids ls (u.ids.getD i 0)).headD "") = _
    rw [h1]

/-- C4 witness for the amended statement: on the divergent-label table the
aggregated label of id 7 is the first row's label. -/
theorem aggregate_takes_first_label_witness :
    labelAtD ⟨[7], .floats [1], .strs ["A"]⟩ 0 =
      labelAtD ⟨[7, 7], .floats [1, 1], .strs ["A", "B"]⟩
        (firstIdxOf [7, 7] (([7] : List ℤ).getD 0 0)) := by
  have hok : aggregate_predictions ⟨[7, 7], .floats [1, 1], .strs ["A", "B"]⟩ =
      Except.ok ⟨[7], .floats [1], .strs ["A"]⟩ := by
    have h1 : floatMean (groupVals [7, 7] [(1 : ℚ), 1] 7) = 1 := by
      norm_num [floatMean, groupVals]
    have h0 : aggregate_predictions ⟨[7, 7], .floats [1, 1], .strs ["A", "B"]⟩ =
        Except.ok ⟨[7], .floats [floatMean (groupVals [7, 7] [(1 : ℚ), 1] 7)], .strs ["A"]⟩ := rfl
    rw [h0, h1]
  have h := aggregate_takes_first_label ⟨[7, 7], .floats [1, 1], .strs ["A", "B"]⟩
    ⟨[7], .floats [1], .strs ["A"]⟩ hok (by decide) 0 (by decide)
  exact h.1

/- ## C2: per-id aggregation -/

theorem get_first_entry_singleton {α : Type} [DecidableEq α] [Inhabited α] (x : α) :
    get_first_entry [x] = x := by
  unfold get_first_entry
  rw [headD_pyUnique]
  rfl

theorem vecMean_singleton (v : List ℚ) : vecMean [v] = Except.ok v := by
  unfold vecMean
  dsimp only
  rw [if_pos (show (List.all ([] : List (List ℚ)) fun w => decide (w.length = v.length)) = true from rfl)]
  refine congrArg Except.ok ?_
  refine Eq.trans (List.map_congr_left ?_) (range_map_getD v 0)
  intro j hj
  simp

/-- C2: per-id aggregation returns exactly one row per distinct input id
(no id lost, none duplicated, one score and one label cell per id), and the
score of each output row is the element-wise mean of the scores of all input
rows carrying that id — the scalar mean for a float score column, the
per-coordinate vector mean for a vector score column. -/
theorem aggregate_one_row_per_id_mean_scores (t u : PredTable)
    (hok : aggregate_predictions t = Except.ok u)
    (hLen : scoresLen t.scores = t.ids.length) :
    (u.ids.Nodup
     ∧ (∀ k, k ∈ u.ids ↔ k ∈ t.ids)
     ∧ scoresLen u.scores = u.ids.length
     ∧ labelsLen u.labels = u.ids.length)
    ∧ (∀ xs, t.scores = .floats xs → ∃ ys, u.scores = .floats ys ∧
        ∀ i, i < u.ids.length →
          ys.getD i 0 = (groupVals t.ids xs (u.ids.getD i 0)).sum /
            ((groupVals t.ids xs (u.ids.getD i 0)).length : ℚ))
    ∧ (∀ vs, t.scores = .vecs vs → ∃ ms, u.scores = .vecs ms ∧
        ∀ i, i < u.ids.length → ∀ j, j < (ms.getD i []).length →
          (ms.getD i []).getD j 0 =
            ((groupVals t.ids vs (u.ids.getD i 0)).map (fun w => w.getD j 0)).sum /
              ((groupVals t.ids vs (u.ids.getD i 0)).length : ℚ)) := by
  obtain ⟨tids, tsc, tlb⟩ := t
  obtain ⟨hids, hlabI, hlabS, hfl, hvec, hslen, hllen⟩ :=
    aggregate_ok_parts tids tsc tlb u hok
  refine ⟨⟨by rw [hids]; exact sortedKeys_nodup tids,
    fun k => by rw [hids]; exact mem_sortedKeys tids k,
    by rw [hslen, hids], by rw [hllen, hids]⟩, ?_, ?_⟩
  · intro xs hx
    have husc := hfl xs hx
    refine ⟨_, husc, ?_⟩
    intro i hi
    have hklen : i < (sortedKeys tids).length := by rw [← hids]; exact hi
    have hgd : (sortedKeys tids).getD i 0 = u.ids.getD i 0 := by rw [hids]
    have hysd : ((sortedKeys tids).map (fun k => floatMean (groupVals tids xs k))).getD i 0 =
        floatMean (groupVals tids xs (u.ids.getD i 0)) := by
      rw [getD_map_of_lt _ _ _ hklen _ 0, hgd]
    rw [hysd]
    rfl
  · intro vs hv
    obtain ⟨ms, hms, husc⟩ := hvec vs hv
    refine ⟨ms, husc, ?_⟩
    intro i hi j hj
    dsimp only
    have hklen : i < (sortedKeys tids).length := by rw [← hids]; exact hi
    have hgd : (sortedKeys tids).getD i 0 = u.ids.getD i 0 := by rw [hids]
    have hmok := (mapM_ok_getD _ _ _ hms).2 i 0 [] hklen
    rw [hgd] at hmok
    unfold vecMean at hmok
    cases hg : groupVals tids vs (u.ids.getD i 0) with
    | nil =>
      rw [hg] at hmok
      exact absurd hmok (fun hc => Except.noConfusion hc)
    | cons v rest =>
      rw [hg] at hmok
      dsimp only at hmok
      by_cases hcond : (rest.all fun w => decide (w.length = v.length)) = true
      · rw [if_pos hcond] at hmok
        injection hmok with hmi
        have hlen2 : (ms.getD i []).length = v.length := by
          rw [← hmi, List.length_map, List.length_range]
        have hjv : j < v.length := by rw [← hlen2]; exact hj
        have hjr : j < (List.range v.length).length := by
          rw [List.length_range]; exact hjv
        rw [← hmi, getD_map_of_lt _ _ _ hjr _ 0]
        rw [List.getD_eq_getElem _ 0 hjr, List.getElem_range]
      · rw [if_neg hcond] at hmok
        exact absurd hmok (fun hc => Except.noConfusion hc)

/-- C2 witness: aggregating a concrete three-row table by id yields
duplicate-free output ids covering exactly the input ids. -/
theorem aggregate_one_row_per_id_mean_scores_witness :
    (extractOk (aggregate_predictions ⟨[5, 5, 2], .floats [1, 0, 1], .ints [1, 1, 0]⟩)
        ⟨[], .floats [], .ints []⟩).ids.Nodup
    ∧ (5 ∈ (extractOk (aggregate_predictions ⟨[5, 5, 2], .floats [1, 0, 1], .ints [1, 1, 0]⟩)
        ⟨[], .floats [], .ints []⟩).ids ↔ 5 ∈ ([5, 5, 2] : List ℤ)) := by
  have h := aggregate_one_row_per_id_mean_scores
    ⟨[5, 5, 2], .floats [1, 0, 1], .ints [1, 1, 0]⟩
    (extractOk (aggregate_predictions ⟨[5, 5, 2], .floats [1, 0, 1], .ints [1, 1, 0]⟩)
      ⟨[], .floats [], .ints []⟩) (by rfl) (by decide)
  exact ⟨h.1.1, h.1.2.1 5⟩

/- ## C9: idempotence of aggregation -/

/-- C9: per-id aggregation is idempotent — aggregating the output of an
aggregation by the same id column returns that output unchanged (each id now
has exactly one row, whose mean is itself and whose first label is itself). -/
theorem aggregate_idempotent (t u : PredTable)
    (hok : aggregate_predictions t = Except.ok u) :
    aggregate_predictions u = Except.ok u := by
  obtain ⟨tids, tsc, tlb⟩ := t
  obtain ⟨uids, usc, ulb⟩ := u
  obtain ⟨hids, hlabI, hlabS, hfl, hvec, hslen, hllen⟩ :=
    aggregate_ok_parts tids tsc tlb ⟨uids, usc, ulb⟩ hok
  dsimp only at hids hslen hllen
  subst hids
  clear hok hlabI hlabS hfl hvec
  have hnd : (sortedKeys tids).Nodup := sortedKeys_nodup tids
  have hkeys : sortedKeys (sortedKeys tids) = sortedKeys tids :=
    sortedKeys_eq_self hnd (sortedKeys_sorted tids)
  cases usc with
  | floats ys =>
    simp only [scoresLen] at hslen
    have hmap : (sortedKeys tids).map
        (fun k => floatMean (groupVals (sortedKeys tids) ys k)) = ys := by
      apply map_eq_of_getD _ _ _ 0 0 hslen.symm
      intro i hi
      rw [groupVals_singleton (sortedKeys tids) ys i 0 hnd hslen.symm hi]
      simp [floatMean]
    cases ulb with
    | ints ls =>
      simp only [labelsLen] at hllen
      have hmapL : (sortedKeys tids).map
          (fun k => get_first_entry (groupVals (sortedKeys tids) ls k)) = ls := by
        apply map_eq_of_getD _ _ _ 0 0 hllen.symm
        intro i hi
        rw [groupVals_singleton (sortedKeys tids) ls i 0 hnd hllen.symm hi,
          get_first_entry_singleton]
      unfold aggregate_predictions
      dsimp only
      rw [hkeys, hmap, hmapL]
    | strs ls =>
      simp only [labelsLen] at hllen
      have hmapL : (sortedKeys tids).map
          (fun k => get_first_entry (groupVals (sortedKeys tids) ls k)) = ls := by
        apply map_eq_of_getD _ _ _ 0 "" hllen.symm
        intro i hi
        rw [groupVals_singleton (sortedKeys tids) ls i "" hnd hllen.symm hi,
          get_first_entry_singleton]
      unfold aggregate_predictions
      dsimp only
      rw [hkeys, hmap, hmapL]
  | vecs ms =>
    simp only [scoresLen] at hslen
    have hmapM : (sortedKeys tids).mapM
        (fun k => vecMean (groupVals (sortedKeys tids) ms k)) = Except.ok ms := by
      apply mapM_ok_of_getD _ _ _ 0 [] hslen.symm
      intro i hi
      rw [groupVals_singleton (sortedKeys tids) ms i [] hnd hslen.symm hi,
        vecMean_singleton]
    cases ulb with
    | ints ls =>
      simp only [labelsLen] at hllen
      have hmapL : (sortedKeys tids).map
          (fun k => get_first_entry (groupVals (sortedKeys tids) ls k)) = ls := by
        apply map_eq_of_getD _ _ _ 0 0 hllen.symm
        intro i hi
        rw [groupVals_singleton (sortedKeys tids) ls i 0 hnd hllen.symm hi,
          get_first_entry_singleton]
      unfold aggregate_predictions
      dsimp only
      rw [hkeys, hmapM]
      dsimp only [Except.map]
      rw [hmapL]
    | strs ls =>
      simp only [labelsLen] at hllen
      have hmapL : (sortedKeys tids).map
          (fun k => get_first_entry (groupVals (sortedKeys tids) ls k)) = ls := by
        apply map_eq_of_getD _ _ _ 0 "" hllen.symm
        intro i hi
        rw [groupVals_singleton (sortedKeys tids) ls i "" hnd hllen.symm hi,
          get_first_entry_singleton]
      unfold aggregate_predictions
      dsimp only
      rw [hkeys, hmapM]
      dsimp only [Except.map]
      rw [hmapL]

/-- C9 witness: re-aggregating the aggregation of a concrete two-row table
returns the aggregated table unchanged. -/
theorem aggregate_idempotent_witness :
    aggregate_predictions (extractOk
      (aggregate_predictions ⟨[3, 3], .floats [1, 0], .strs ["A", "A"]⟩)
      ⟨[], .floats [], .ints []⟩) =
    Except.ok (extractOk
      (aggregate_predictions ⟨[3, 3], .floats [1, 0], .strs ["A", "A"]⟩)
      ⟨[], .floats [], .ints []⟩) := by
  exact aggregate_idempotent ⟨[3, 3], .floats [1, 0], .strs ["A", "A"]⟩ _ (by rfl)

/- ## C5: metadata validation and broadcast -/

theorem colOf_ne_nil {V : Type} (df : List (String × List V)) (c : String)
    (hmem : c ∈ dfColNames df) (hrows : ∀ col ∈ df, col.2 ≠ []) :
    colOf df c ≠ [] := by
  unfold colOf
  obtain ⟨col, hcol, hc⟩ := List.mem_map.mp hmem
  have hsome : (df.find? (fun col2 => decide (col2.1 = c))).isSome := by
    rw [List.find?_isSome]
    exact ⟨col, hcol, by simp [hc]⟩
  obtain ⟨col2, hcol2⟩ := Option.isSome_iff_exists.mp hsome
  rw [hcol2]
  have hmem2 : col2 ∈ df := List.mem_of_find?_eq_some hcol2
  simpa using hrows col2 hmem2

theorem mem_pyDictInsert {α β : Type} [DecidableEq α] (d : List (α × β)) (k : α)
    (v : β) (p : α × β) (hp : p ∈ pyDictInsert d k v) : p = (k, v) ∨ p ∈ d := by
  unfold pyDictInsert at hp
  by_cases hany : d.any (fun q => decide (q.1 = k))
  · rw [if_pos hany] at hp
    obtain ⟨q, hq, hpq⟩ := List.mem_map.mp hp
    by_cases hqk : q.1 = k
    · rw [if_pos hqk] at hpq
      exact Or.inl hpq.symm
    · rw [if_neg hqk] at hpq
      rw [← hpq]
      exact Or.inr hq
  · rw [if_neg hany] at hp
    rcases List.mem_append.mp hp with h | h
    · exact Or.inr h
    · exact Or.inl (by simpa using h)

theorem metadata_foldlM_ok_iff {V : Type} [DecidableEq V]
    (df : List (String × List V)) (hrows : ∀ col ∈ df, col.2 ≠ []) :
    ∀ (cs : List String) (acc : List (String × V)),
      (∃ md, List.foldlM (metaStep df) acc cs = Except.ok md) ↔
        ∀ c ∈ cs, c ∈ dfColNames df ∧ (pyUnique (colOf df c)).length = 1 := by
  intro cs
  induction cs with
  | nil =>
    intro acc
    constructor
    · intro _ c hc; exact absurd hc (List.not_mem_nil c)
    · intro _; exact ⟨acc, rfl⟩
  | cons c cs2 ih =>
    intro acc
    by_cases hmem : c ∈ dfColNames df
    · have hcol : colOf df c ≠ [] := colOf_ne_nil df c hmem hrows
      cases hu : pyUnique (colOf df c) with
      | nil => exact absurd ((pyUnique_eq_nil_iff _).mp hu) hcol
      | cons v vs =>
        cases vs with
        | nil =>
          have hstep : metaStep df acc c = Except.ok (pyDictInsert acc c v) := by
            unfold metaStep
            rw [if_pos hmem, hu]
          constructor
          · rintro ⟨md, hmd⟩
            rw [List.foldlM_cons, except_bind_ok] at hmd
            obtain ⟨acc2, _, h2⟩ := hmd
            intro c2 hc2
            rcases List.mem_cons.mp hc2 with h | h
            · subst h
              exact ⟨hmem, by rw [hu]; rfl⟩
            · exact ((ih acc2).mp ⟨md, h2⟩) c2 h
          · intro hall
            obtain ⟨md, hmd⟩ := (ih (pyDictInsert acc c v)).mpr
              (fun c2 hc2 => hall c2 (List.mem_cons_of_mem _ hc2))
            refine ⟨md, ?_⟩
            rw [List.foldlM_cons, except_bind_ok]
            exact ⟨pyDictInsert acc c v, hstep, hmd⟩
        | cons v2 vs2 =>
          have hstep : metaStep df acc c =
              Except.error ("The column " ++ c ++ " contains more than one unique value.") := by
            unfold metaStep
            rw [if_pos hmem, hu]
          constructor
          · rintro ⟨md, hmd⟩
            rw [List.foldlM_cons, except_bind_ok] at hmd
            obtain ⟨acc2, hb, _⟩ := hmd
            rw [hstep] at hb
            exact absurd hb (fun hc => Except.noConfusion hc)
          · intro hall
            have h2 := (hall c (List.mem_cons_self _ _)).2
            rw [hu] at h2
            exact absurd h2 (by simp)
    · have hstep : metaStep df acc c =
          Except.error ("The metadata column " ++ c ++ " is not contained in the data") := by
        unfold metaStep
        rw [if_neg hmem]
      constructor
      · rintro ⟨md, hmd⟩
        rw [List.foldlM_cons, except_bind_ok] at hmd
        obtain ⟨acc2, hb, _⟩ := hmd
        rw [hstep] at hb
        exact absurd hb (fun hc => Except.noConfusion hc)
      · intro hall
        exact absurd (hall c (List.mem_cons_self _ _)).1 hmem

theorem metadata_foldlM_inv {V : Type} [DecidableEq V] (df : List (String × List V)) :
    ∀ (cs : List String) (acc md : List (String × V)),
      List.foldlM (metaStep df) acc cs = Except.ok md →
      (∀ p ∈ acc, pyUnique (colOf df p.1) = [p.2]) →
      ∀ p ∈ md, pyUnique (colOf df p.1) = [p.2] := by
  intro cs
  induction cs with
  | nil =>
    intro acc md h hinv
    rw [List.foldlM_nil] at h
    injection h with h2
    rw [← h2]
    exact hinv
  | cons c cs2 ih =>
    intro acc md h hinv
    rw [List.foldlM_cons, except_bind_ok] at h
    obtain ⟨acc2, hstep, h2⟩ := h
    refine ih acc2 md h2 ?_
    unfold metaStep at hstep
    by_cases hmem : c ∈ dfColNames df
    · rw [if_pos hmem] at hstep
      cases hu : pyUnique (colOf df c) with
      | nil =>
        rw [hu] at hstep
        exact absurd hstep (fun hc => Except.noConfusion hc)
      | cons v vs =>
        cases vs with
        | nil =>
          rw [hu] at hstep
          injection hstep with h3
          rw [← h3]
          intro p hp
          rcases mem_pyDictInsert acc c v p hp with h4 | h4
          · rw [h4]
            exact hu
          · exact hinv p h4
        | cons v2 vs2 =>
          rw [hu] at hstep
          exact absurd hstep (fun hc => Except.noConfusion hc)
    · rw [if_neg hmem] at hstep
      exact absurd hstep (fun hc => Except.noConfusion hc)

/-- C5: for metadata columns requested by name, the call succeeds exactly when
every requested column exists in the table and is single-valued — a missing
column or one with more than one unique value aborts the whole call with an
error and no metadata row is produced — and on success the single value of
each metadata column (the common value of all its cells) is broadcast as a
constant column of one cell per row of the `n`-row metrics table. -/
theorem metadata_cols_validated_and_broadcast {V : Type} [DecidableEq V]
    (df : List (String × List V)) (cols skip : List String) (n : ℕ)
    (hne : cols ≠ []) (hall : cols.headD "" ≠ "all")
    (hrows : ∀ col ∈ df, col.2 ≠ []) :
    ((∃ md, get_metadata_cols df cols skip = Except.ok md) ↔
       ∀ c ∈ cols, c ∈ dfColNames df ∧ (pyUnique (colOf df c)).length = 1)
    ∧ (∀ md, get_metadata_cols df cols skip = Except.ok md →
         ∀ p ∈ md, (∀ x ∈ colOf df p.1, x = p.2)
           ∧ (p.1, List.replicate n p.2) ∈ add_metadata_cols n md
           ∧ (List.replicate n p.2).length = n
           ∧ ∀ q ∈ List.replicate n p.2, q = p.2) := by
  obtain ⟨c0, rest, rfl⟩ : ∃ c0 rest, cols = c0 :: rest := by
    cases cols with
    | nil => exact absurd rfl hne
    | cons a t => exact ⟨a, t, rfl⟩
  have hc0 : c0 ≠ "all" := by simpa using hall
  have hunf : get_metadata_cols df (c0 :: rest) skip =
      List.foldlM (metaStep df) [] (c0 :: rest) := by
    unfold get_metadata_cols
    dsimp only
    rw [if_neg hc0]
  constructor
  · rw [hunf]
    exact metadata_foldlM_ok_iff df hrows (c0 :: rest) []
  · intro md hmd p hp
    rw [hunf] at hmd
    have hinv := metadata_foldlM_inv df (c0 :: rest) [] md hmd
      (fun p2 hp2 => absurd hp2 (List.not_mem_nil p2)) p hp
    refine ⟨fun x hx => pyUnique_all_eq hinv x hx, ?_,
      List.length_replicate _ _, fun q hq => List.eq_of_mem_replicate hq⟩
    unfold add_metadata_cols
    exact List.mem_map.mpr ⟨p, hp, rfl⟩

/-- C5 witness: requesting the single-valued column `"model_name"` succeeds
and its value `"test"` is broadcast onto all three result rows. -/
theorem metadata_cols_validated_and_broadcast_witness :
    ("model_name", List.replicate 3 "test") ∈
      add_metadata_cols 3 [("model_name", "test")] := by
  have hok : get_metadata_cols [("model_name", ["test", "test"]), ("score", ["a", "b"])]
      ["model_name"] ([] : List String) = Except.ok [("model_name", "test")] := by decide
  have h := (metadata_cols_validated_and_broadcast
    [("model_name", ["test", "test"]), ("score", ["a", "b"])] ["model_name"] [] 3
    (by decide) (by decide) (by decide)).2 [("model_name", "test")] hok
    ("model_name", "test") (by decide)
  exact h.2.1

/- ## String splitting lemmas -/

theorem splitFirstDash_append (as bs : List Char) (h : ∀ c ∈ as, c ≠ '-') :
    splitFirstDash (as ++ '-' :: bs) = some (as, bs) := by
  induction as with
  | nil =>
    show splitFirstDash ('-' :: bs) = _
    unfold splitFirstDash
    rw [if_pos rfl]
  | cons c cs ih =>
    have hc : c ≠ '-' := h c (List.mem_cons_self _ _)
    show splitFirstDash (c :: (cs ++ '-' :: bs)) = _
    unfold splitFirstDash
    rw [if_neg hc, ih (fun c2 hc2 => h c2 (List.mem_cons_of_mem _ hc2))]

theorem append_dash_inj_chars :
    ∀ (as bs cs ds : List Char), (∀ c ∈ as, c ≠ '-') → (∀ c ∈ cs, c ≠ '-') →
      as ++ '-' :: bs = cs ++ '-' :: ds → as = cs ∧ bs = ds := by
  intro as
  induction as with
  | nil =>
    intro bs cs ds _ hcs heq
    cases cs with
    | nil =>
      refine ⟨rfl, ?_⟩
      injection heq
    | cons c cs2 =>
      injection heq with h1 _
      exact absurd h1.symm (hcs c (List.mem_cons_self _ _))
  | cons a as2 ih =>
    intro bs cs ds has hcs heq
    cases cs with
    | nil =>
      injection heq with h1 _
      exact absurd h1 (has a (List.mem_cons_self _ _))
    | cons c cs2 =>
      injection heq with h1 h2
      obtain ⟨hh, hb⟩ := ih bs cs2 ds (fun x hx => has x (List.mem_cons_of_mem _ hx))
        (fun x hx => hcs x (List.mem_cons_of_mem _ hx)) h2
      exact ⟨by rw [h1, hh], hb⟩

theorem data_dash_append (a b : String) :
    (a ++ "-" ++ b).data = a.data ++ '-' :: b.data := by
  rw [String.data_append, String.data_append]
  have h : ("-" : String).data = ['-'] := rfl
  rw [h, List.append_assoc]
  rfl

theorem pySplit1_dash_append (a b : String) (h : noDash a) :
    pySplit1 (a ++ "-" ++ b) = (a, b) := by
  unfold pySplit1
  rw [data_dash_append, splitFirstDash_append a.data b.data h]

theorem pySplit2_tag (p k : String) (hp : noDash p) :
    pySplit2 (p ++ "-" ++ k) = (p, (pySplit1 k).1, (pySplit1 k).2) := by
  unfold pySplit2
  rw [pySplit1_dash_append p k hp]

theorem pySplit2_dash_append (a b c : String) (ha : noDash a) (hb : noDash b) :
    pySplit2 (a ++ "-" ++ (b ++ "-" ++ c)) = (a, b, c) := by
  rw [pySplit2_tag a _ ha, pySplit1_dash_append b c hb]

theorem str_append_dash_inj (a b x y : String) (ha : noDash a) (hx : noDash x) :
    a ++ "-" ++ b = x ++ "-" ++ y ↔ a = x ∧ b = y := by
  constructor
  · intro h
    have hd := congrArg String.data h
    rw [data_dash_append, data_dash_append] at hd
    obtain ⟨h1, h2⟩ := append_dash_inj_chars a.data b.data x.data y.data ha hx hd
    exact ⟨String.ext h1, String.ext h2⟩
  · rintro ⟨rfl, rfl⟩
    rfl

theorem str_append_assoc (a b c : String) : a ++ b ++ c = a ++ (b ++ c) := by
  apply String.ext
  rw [String.data_append, String.data_append, String.data_append, String.data_append,
    List.append_assoc]

/- ## Record structure lemmas -/

theorem record_keys_split (labels predicted : List Lbl) :
    ∀ kv ∈ pyPerformanceRecord labels predicted,
      ∃ st cls, noDash st ∧ st ≠ "auc" ∧ kv.1 = st ++ "-" ++ cls := by
  intro kv hkv
  unfold pyPerformanceRecord at hkv
  rw [List.mem_append] at hkv
  rcases hkv with h | h
  · simp only [List.mem_cons, List.not_mem_nil, or_false] at h
    rcases h with h|h|h|h|h|h|h|h
    · exact ⟨"acc", "overall", by decide, by decide, by rw [h]; show ("acc-overall" : String) = _; decide⟩
    · exact ⟨"f1_macro", "overall", by decide, by decide, by rw [h]; show ("f1_macro-overall" : String) = _; decide⟩
    · exact ⟨"f1_micro", "overall", by decide, by decide, by rw [h]; show ("f1_micro-overall" : String) = _; decide⟩
    · exact ⟨"precision_macro", "overall", by decide, by decide, by rw [h]; show ("precision_macro-overall" : String) = _; decide⟩
    · exact ⟨"precision_micro", "overall", by decide, by decide, by rw [h]; show ("precision_micro-overall" : String) = _; decide⟩
    · exact ⟨"recall_macro", "overall", by decide, by decide, by rw [h]; show ("recall_macro-overall" : String) = _; decide⟩
    · exact ⟨"recall_micro", "overall", by decide, by decide, by rw [h]; show ("recall_micro-overall" : String) = _; decide⟩
    · exact ⟨"confusion_matrix", "overall", by decide, by decide, by rw [h]; show ("confusion_matrix-overall" : String) = _; decide⟩
  · rw [List.mem_flatMap] at h
    obtain ⟨ig, _, hkv2⟩ := h
    simp only [List.mem_cons, List.not_mem_nil, or_false] at hkv2
    rcases hkv2 with h|h|h
    · exact ⟨"f1", lblToString ig.2, by decide, by decide, by rw [h]; show ("f1-" : String) ++ lblToString ig.2 = _; rw [show ("f1-" : String) = "f1" ++ "-" by decide]⟩
    · exact ⟨"precision", lblToString ig.2, by decide, by decide, by rw [h]; show ("precision-" : String) ++ lblToString ig.2 = _; rw [show ("precision-" : String) = "precision" ++ "-" by decide]⟩
    · exact ⟨"recall", lblToString ig.2, by decide, by decide, by rw [h]; show ("recall-" : String) ++ lblToString ig.2 = _; rw [show ("recall-" : String) = "recall" ++ "-" by decide]⟩

theorem compute_metrics_eq (labels predicted : List Lbl) (w : Bool) (lv : Option String) :
    compute_metrics labels predicted w lv =
      formatDF lv w (pyPerformanceRecord labels predicted) := by
  unfold compute_metrics formatDF
  cases w with
  | true => rfl
  | false =>
    show MetricsDF.long _ = MetricsDF.long _
    rw [List.map_map]
    cases lv with
    | none => rfl
    | some p => rfl

theorem calculate_roc_auc_eq (li : List ℤ) (pr : List ℚ) (w : Bool) (lv : Option String)
    (hlv : lv = none ∨ ∃ p, lv = some p ∧ noDash p) :
    calculate_roc_auc li pr w lv =
      formatDF lv w [("auc-overall", MetricVal.num (roc_auc_score li pr))] := by
  unfold calculate_roc_auc formatDF
  cases w with
  | true => rfl
  | false =>
    show MetricsDF.long _ = MetricsDF.long _
    have hsplit : "auc-overall" = "auc" ++ "-" ++ "overall" := by decide
    rcases hlv with h | ⟨p, hp, hnd⟩
    · subst h
      unfold longRowOfTagged
      simp only [hsplit, List.map_cons, List.map_nil]
      rw [pySplit1_dash_append "auc" "overall" (by decide)]
    · subst hp
      unfold longRowOfTagged
      simp only [hsplit, List.map_cons, List.map_nil]
      dsimp only [tagKey]
      rw [pySplit2_dash_append p "auc" "overall" hnd (by decide)]

theorem formatDF_append_wide (lv : Option String) (A B : List (String × MetricVal)) :
    wideJoin (formatDF lv true A) (formatDF lv true B) = formatDF lv true (A ++ B) := by
  unfold formatDF wideJoin
  simp

theorem formatDF_append_long (lv : Option String) (A B : List (String × MetricVal)) :
    longConcat (formatDF lv false A) (formatDF lv false B) = formatDF lv false (A ++ B) := by
  unfold formatDF longConcat
  simp

theorem evaluate_jp_eq (t : PredTable) (w : Bool) (m : Option (List (ℤ × String)))
    (lv : Option String) (hlv : lv = none ∨ ∃ p, lv = some p ∧ noDash p) :
    (do
      let predictions ← predictionsOf t.scores m
      let labels : List Lbl := lblColToLbls t.labels
      let metrics : MetricsDF := compute_metrics labels predictions w lv
      let isBin ← binaryShapedHead t.scores
      if isBin then do
        let label2id := if pyTruthy m then some (pyInvert (m.getD [])) else none
        let probs := scores_to_probs t.scores
        let label_int ← labels_to_int t.labels label2id
        let auc_df : MetricsDF := calculate_roc_auc label_int probs w lv
        if w then Except.ok (wideJoin metrics auc_df)
        else Except.ok (longConcat metrics auc_df)
      else Except.ok metrics) =
    Except.map (formatDF lv w) (do
      let predictions ← predictionsOf t.scores m
      let labels : List Lbl := lblColToLbls t.labels
      let base : List (String × MetricVal) := pyPerformanceRecord labels predictions
      let isBin ← binaryShapedHead t.scores
      if isBin then do
        let label2id := if pyTruthy m then some (pyInvert (m.getD [])) else none
        let label_int ← labels_to_int t.labels label2id
        Except.ok (base ++
          [("auc-overall", MetricVal.num (roc_auc_score label_int (scores_to_probs t.scores)))])
      else Except.ok base) := by
  cases hp : predictionsOf t.scores m with
  | error e => rfl
  | ok preds =>
    show (binaryShapedHead t.scores >>= _) = Except.map _ (binaryShapedHead t.scores >>= _)
    cases hb : binaryShapedHead t.scores with
    | error e => rfl
    | ok isBin =>
      cases isBin with
      | false =>
        show Except.ok (compute_metrics _ _ _ _) = _
        rw [compute_metrics_eq]
        rfl
      | true =>
        show ((labels_to_int t.labels _) >>= _) =
          Except.map _ ((labels_to_int t.labels _) >>= _)
        cases hl : labels_to_int t.labels
            (if pyTruthy m then some (pyInvert (m.getD [])) else none) with
        | error e => rfl
        | ok li =>
          show (if w then Except.ok (wideJoin (compute_metrics _ _ w lv)
              (calculate_roc_auc li (scores_to_probs t.scores) w lv)) else _) = _
          cases w with
          | true =>
            show Except.ok (wideJoin (compute_metrics _ _ _ _) (calculate_roc_auc _ _ _ _)) = _
            rw [compute_metrics_eq, calculate_roc_auc_eq _ _ _ _ hlv, formatDF_append_wide]
            rfl
          | false =>
            show Except.ok (longConcat (compute_metrics _ _ _ _) (calculate_roc_auc _ _ _ _)) = _
            rw [compute_metrics_eq, calculate_roc_auc_eq _ _ _ _ hlv, formatDF_append_long]
            rfl

theorem evaluate_eq_record (df : PredTable) (agg w : Bool)
    (m : Option (List (ℤ × String))) :
    evaluate_single_model df agg w m =
      (evalRecordE df agg m).map (formatDF (if agg then some "id" else none) w) := by
  unfold evaluate_single_model evalRecordE
  cases agg with
  | false =>
    show (do
      let predictions ← predictionsOf df.scores m
      let labels : List Lbl := lblColToLbls df.labels
      let metrics : MetricsDF := compute_metrics labels predictions w none
      let isBin ← binaryShapedHead df.scores
      if isBin then do
        let label2id := if pyTruthy m then some (pyInvert (m.getD [])) else none
        let probs := scores_to_probs df.scores
        let label_int ← labels_to_int df.labels label2id
        let auc_df : MetricsDF := calculate_roc_auc label_int probs w none
        if w then Except.ok (wideJoin metrics auc_df)
        else Except.ok (longConcat metrics auc_df)
      else Except.ok metrics) =
      Except.map (formatDF none w) (do
        let predictions ← predictionsOf df.scores m
        let labels : List Lbl := lblColToLbls df.labels
        let base : List (String × MetricVal) := pyPerformanceRecord labels predictions
        let isBin ← binaryShapedHead df.scores
        if isBin then do
          let label2id := if pyTruthy m then some (pyInvert (m.getD [])) else none
          let label_int ← labels_to_int df.labels label2id
          Except.ok (base ++
            [("auc-overall", MetricVal.num (roc_auc_score label_int (scores_to_probs df.scores)))])
        else Except.ok base)
    exact evaluate_jp_eq df w m none (Or.inl rfl)
  | true =>
    cases htt : aggregate_predictions df with
    | error e => rfl
    | ok t =>
      show (do
        let predictions ← predictionsOf t.scores m
        let labels : List Lbl := lblColToLbls t.labels
        let metrics : MetricsDF := compute_metrics labels predictions w (some "id")
        let isBin ← binaryShapedHead t.scores
        if isBin then do
          let label2id := if pyTruthy m then some (pyInvert (m.getD [])) else none
          let probs := scores_to_probs t.scores
          let label_int ← labels_to_int t.labels label2id
          let auc_df : MetricsDF := calculate_roc_auc label_int probs w (some "id")
          if w then Except.ok (wideJoin metrics auc_df)
          else Except.ok (longConcat metrics auc_df)
        else Except.ok metrics) =
        Except.map (formatDF (some "id") w) (do
          let predictions ← predictionsOf t.scores m
          let labels : List Lbl := lblColToLbls t.labels
          let base : List (String × MetricVal) := pyPerformanceRecord labels predictions
          let isBin ← binaryShapedHead t.scores
          if isBin then do
            let label2id := if pyTruthy m then some (pyInvert (m.getD [])) else none
            let label_int ← labels_to_int t.labels label2id
            Except.ok (base ++
              [("auc-overall", MetricVal.num (roc_auc_score label_int (scores_to_probs t.scores)))])
          else Except.ok base)
      exact evaluate_jp_eq t w m (some "id") (Or.inr ⟨"id", rfl, by decide⟩)

/- ## Binary-shape analysis for the AUC path -/

theorem binaryShapedHead_of_ne_nil (s : ScoreCol) (h : scoresLen s ≠ 0) :
    binaryShapedHead s = Except.ok (decide (binaryShaped s)) := by
  cases s with
  | floats xs =>
    cases xs with
    | nil => exact absurd rfl h
    | cons x t => rfl
  | vecs vs =>
    cases vs with
    | nil => exact absurd rfl h
    | cons v t => rfl

theorem aggregated_binaryShaped (tids : List ℤ) (tsc : ScoreCol) (tlb : LabelCol)
    (t : PredTable)
    (hLen : scoresLen tsc = tids.length) (hUni : uniformScores tsc) (hNe : tids ≠ [])
    (hok : aggregate_predictions ⟨tids, tsc, tlb⟩ = Except.ok t) :
    binaryShapedHead t.scores = Except.ok (decide (binaryShaped tsc)) := by
  obtain ⟨hids, _, _, hfl, hvec, hslen, _⟩ := aggregate_ok_parts tids tsc tlb t hok
  have hkne : sortedKeys tids ≠ [] := sortedKeys_ne_nil hNe
  cases tsc with
  | floats xs =>
    have ht := hfl xs rfl
    have hlen0 : scoresLen (ScoreCol.floats ((sortedKeys tids).map
        (fun k => floatMean (groupVals tids xs k)))) ≠ 0 := by
      have hkl : (sortedKeys tids).length ≠ 0 :=
        fun h0 => hkne (List.length_eq_zero.mp h0)
      simpa [scoresLen] using hkl
    rw [ht, binaryShapedHead_of_ne_nil _ hlen0]
    rfl
  | vecs vs =>
    obtain ⟨ms, hms, ht⟩ := hvec vs rfl
    have hmslen := (mapM_ok_getD _ _ _ hms).1
    cases hks : sortedKeys tids with
    | nil => exact absurd hks hkne
    | cons k0 krest =>
      cases hmsc : ms with
      | nil => rw [hks, hmsc] at hmslen; simp at hmslen
      | cons m0 mrest =>
        have h0 := (mapM_ok_getD _ _ _ hms).2 0 0 [] (by rw [hks]; exact Nat.succ_pos _)
        rw [hks, hmsc] at h0
        simp only [List.getD_cons_zero] at h0
        have hk0 : k0 ∈ tids := by
          rw [← mem_sortedKeys, hks]
          exact List.mem_cons_self _ _
        have hlen2 : tids.length = vs.length := by
          simpa [scoresLen] using hLen.symm
        have hgne : groupVals tids vs k0 ≠ [] := groupVals_ne_nil tids vs k0 hlen2 hk0
        cases hg : groupVals tids vs k0 with
        | nil => exact absurd hg hgne
        | cons v rest =>
          rw [hg] at h0
          unfold vecMean at h0
          dsimp only at h0
          by_cases hcond : (rest.all fun w => decide (w.length = v.length)) = true
          · rw [if_pos hcond] at h0
            injection h0 with h0i
            have hm0 : m0.length = v.length := by
              rw [← h0i, List.length_map, List.length_range]
            have hv : v ∈ vs := groupVals_sub tids vs k0 v
              (by rw [hg]; exact List.mem_cons_self _ _)
            have hvl : v.length = (vs.headD []).length := hUni v hv
            rw [ht, hmsc]
            show Except.ok (decide (m0.length = 2)) =
              Except.ok (decide (binaryShaped (ScoreCol.vecs vs)))
            rw [hm0, hvl]
            rfl
          · rw [if_neg hcond] at h0
            exact absurd h0 (fun hc => Except.noConfusion hc)

theorem evalRecordE_ok_split (df : PredTable) (agg : Bool)
    (m : Option (List (ℤ × String)))
    (hLen : scoresLen df.scores = df.ids.length) (hUni : uniformScores df.scores)
    (hNe : df.ids ≠ []) (r : List (String × MetricVal))
    (hok : evalRecordE df agg m = Except.ok r) :
    ∃ base, (∀ kv ∈ base, ∃ st cls, noDash st ∧ st ≠ "auc" ∧ kv.1 = st ++ "-" ++ cls)
      ∧ ((binaryShaped df.scores ∧ ∃ q, r = base ++ [("auc-overall", MetricVal.num q)])
         ∨ (¬ binaryShaped df.scores ∧ r = base)) := by
  obtain ⟨tids, tsc, tlb⟩ := df
  dsimp only at hLen hUni hNe
  unfold evalRecordE at hok
  cases agg with
  | false =>
    obtain ⟨t, ht, hok⟩ := (except_bind_ok _ _ _).mp hok
    injection ht with hte
    subst hte
    obtain ⟨preds, hpreds, hok⟩ := (except_bind_ok _ _ _).mp hok
    obtain ⟨isBin, hisBin, hok⟩ := (except_bind_ok _ _ _).mp hok
    dsimp only at hisBin
    have hshape := binaryShapedHead_of_ne_nil tsc
      (by rw [hLen]; exact fun h0 => hNe (List.length_eq_zero.mp h0))
    rw [hshape] at hisBin
    injection hisBin with hbe
    by_cases hbin : binaryShaped tsc
    · have hbt : isBin = true := by rw [← hbe]; exact decide_eq_true hbin
      subst hbt
      obtain ⟨li, hli, hok⟩ := (except_bind_ok _ _ _).mp hok
      injection hok with hr
      exact ⟨_, record_keys_split _ _,
        Or.inl ⟨hbin, ⟨roc_auc_score li (scores_to_probs tsc), hr.symm⟩⟩⟩
    · have hbt : isBin = false := by rw [← hbe]; exact decide_eq_false hbin
      subst hbt
      injection hok with hr
      exact ⟨_, record_keys_split _ _, Or.inr ⟨hbin, hr.symm⟩⟩
  | true =>
    obtain ⟨t, ht, hok⟩ := (except_bind_ok _ _ _).mp hok
    obtain ⟨preds, hpreds, hok⟩ := (except_bind_ok _ _ _).mp hok
    obtain ⟨isBin, hisBin, hok⟩ := (except_bind_ok _ _ _).mp hok
    have hshape := aggregated_binaryShaped tids tsc tlb t hLen hUni hNe ht
    rw [hshape] at hisBin
    injection hisBin with hbe
    by_cases hbin : binaryShaped tsc
    · have hbt : isBin = true := by rw [← hbe]; exact decide_eq_true hbin
      subst hbt
      obtain ⟨li, hli, hok⟩ := (except_bind_ok _ _ _).mp hok
      injection hok with hr
      exact ⟨_, record_keys_split _ _,
        Or.inl ⟨hbin, ⟨roc_auc_score li (scores_to_probs t.scores), hr.symm⟩⟩⟩
    · have hbt : isBin = false := by rw [← hbe]; exact decide_eq_false hbin
      subst hbt
      injection hok with hr
      exact ⟨_, record_keys_split _ _, Or.inr ⟨hbin, hr.symm⟩⟩

/- ## C1: the AUC path -/

theorem longRowOfTagged_eval (lv : Option String) (kv : String × MetricVal)
    (st cls : String) (hst : noDash st) (hkey : kv.1 = st ++ "-" ++ cls)
    (hlv : lv = none ∨ ∃ p, lv = some p ∧ noDash p) :
    longRowOfTagged lv kv = ⟨lv, cls, st, kv.2⟩ := by
  rcases hlv with h | ⟨p, hp, hnd⟩
  · subst h
    unfold longRowOfTagged
    dsimp only
    rw [hkey, pySplit1_dash_append st cls hst]
  · subst hp
    unfold longRowOfTagged
    dsimp only [tagKey]
    rw [hkey, pySplit2_dash_append p st cls hnd hst]

theorem scoreTypeOfName_tag (lv : Option String) (st cls : String) (hst : noDash st)
    (hlv : lv = none ∨ ∃ p, lv = some p ∧ noDash p) :
    scoreTypeOfName lv (tagKey lv (st ++ "-" ++ cls)) = st := by
  rcases hlv with h | ⟨p, hp, hnd⟩
  · subst h
    unfold scoreTypeOfName tagKey
    rw [pySplit1_dash_append st cls hst]
  · subst hp
    unfold scoreTypeOfName tagKey
    rw [pySplit2_dash_append p st cls hnd hst]

theorem countP_long_zero (lv : Option String) (base : List (String × MetricVal))
    (hlv : lv = none ∨ ∃ p, lv = some p ∧ noDash p)
    (hbase : ∀ kv ∈ base, ∃ st cls, noDash st ∧ st ≠ "auc" ∧ kv.1 = st ++ "-" ++ cls) :
    (base.map (longRowOfTagged lv)).countP
      (fun r => decide (r.score_type = "auc")) = 0 := by
  rw [List.countP_eq_zero]
  intro row hrow
  obtain ⟨kv, hkv, hre⟩ := List.mem_map.mp hrow
  obtain ⟨st, cls, hst, hne, hkey⟩ := hbase kv hkv
  rw [← hre, longRowOfTagged_eval lv kv st cls hst hkey hlv]
  simpa using hne

theorem countP_wide_zero (lv : Option String) (base : List (String × MetricVal))
    (hlv : lv = none ∨ ∃ p, lv = some p ∧ noDash p)
    (hbase : ∀ kv ∈ base, ∃ st cls, noDash st ∧ st ≠ "auc" ∧ kv.1 = st ++ "-" ++ cls) :
    (base.map (fun kv => (tagKey lv kv.1, kv.2))).countP
      (fun c => decide (scoreTypeOfName lv c.1 = "auc")) = 0 := by
  rw [List.countP_eq_zero]
  intro c hc
  obtain ⟨kv, hkv, hre⟩ := List.mem_map.mp hc
  obtain ⟨st, cls, hst, hne, hkey⟩ := hbase kv hkv
  rw [← hre]
  show ¬ (decide (scoreTypeOfName lv (tagKey lv kv.1) = "auc") = true)
  rw [hkey, scoreTypeOfName_tag lv st cls hst hlv]
  simpa using hne

/-- C1: within a successful run of `_evaluate_single_model` on a well-formed
table, an AUC entry is produced exactly when the score representation is
binary-shaped (a scalar float column, or probability vectors of length 2):
exactly one AUC entry then appears, tagged class `"overall"` and score type
`"auc"` (the column `auc-overall`, level-prefixed in wide layout), appended
after the other metrics by the join/concat; for any other class count no AUC
entry appears at all. -/
theorem auc_presence_iff_binary_shape (df : PredTable) (agg w : Bool)
    (m : Option (List (ℤ × String))) (out : MetricsDF)
    (hLen : scoresLen df.scores = df.ids.length) (hUni : uniformScores df.scores)
    (hNe : df.ids ≠ [])
    (hok : evaluate_single_model df agg w m = Except.ok out) :
    dfAucCount (if agg then some "id" else none) out =
      (if binaryShaped df.scores then 1 else 0)
    ∧ (binaryShaped df.scores →
        dfLastOverallAuc (if agg then some "id" else none) out) := by
  rw [evaluate_eq_record] at hok
  obtain ⟨R, hR, hout⟩ := (except_map_ok _ _ _).mp hok
  obtain ⟨base, hbase, hsplit⟩ := evalRecordE_ok_split df agg m hLen hUni hNe R hR
  subst hout
  have hlv : (if agg then some "id" else none) = none ∨
      ∃ p, (if agg then some "id" else none) = some p ∧ noDash p := by
    cases agg
    · exact Or.inl rfl
    · exact Or.inr ⟨"id", rfl, by decide⟩
  rcases hsplit with ⟨hbin, q, hreq⟩ | ⟨hbin, hreq⟩
  · subst hreq
    rw [if_pos hbin]
    constructor
    · cases w with
      | false =>
        show (((base ++ [("auc-overall", MetricVal.num q)]).map
            (longRowOfTagged _)).countP (fun r => decide (r.score_type = "auc"))) = 1
        rw [List.map_append, List.countP_append, countP_long_zero _ base hlv hbase,
          List.map_cons, List.map_nil,
          longRowOfTagged_eval _ _ "auc" "overall" (by decide)
            (by show ("auc-overall" : String) = _; decide) hlv]
        simp [List.countP_cons]
      | true =>
        show (((base ++ [("auc-overall", MetricVal.num q)]).map
            (fun kv => (tagKey _ kv.1, kv.2))).countP
          (fun c => decide (scoreTypeOfName _ c.1 = "auc"))) = 1
        rw [List.map_append, List.countP_append, countP_wide_zero _ base hlv hbase,
          List.map_cons, List.map_nil]
        have hst : scoreTypeOfName (if agg = true then some "id" else none)
            (tagKey (if agg = true then some "id" else none) "auc-overall") = "auc" := by
          rw [show ("auc-overall" : String) = "auc" ++ "-" ++ "overall" by decide]
          exact scoreTypeOfName_tag _ "auc" "overall" (by decide) hlv
        simp [List.countP_cons, hst]
    · intro _
      cases w with
      | false =>
        refine ⟨q, ?_⟩
        show (((base ++ [("auc-overall", MetricVal.num q)]).map
            (longRowOfTagged _)).getLast?) = _
        rw [List.map_append, List.map_cons, List.map_nil,
          longRowOfTagged_eval _ _ "auc" "overall" (by decide)
            (by show ("auc-overall" : String) = _; decide) hlv,
          List.getLast?_concat]
      | true =>
        refine ⟨q, ?_⟩
        show (((base ++ [("auc-overall", MetricVal.num q)]).map
            (fun kv => (tagKey _ kv.1, kv.2))).getLast?) = _
        rw [List.map_append, List.map_cons, List.map_nil, List.getLast?_concat]
  · subst hreq
    rw [if_neg hbin]
    refine ⟨?_, fun hb => absurd hb hbin⟩
    cases w with
    | false =>
      show ((R.map (longRowOfTagged _)).countP
        (fun r => decide (r.score_type = "auc"))) = 0
      exact countP_long_zero _ R hlv hbase
    | true =>
      show ((R.map (fun kv => (tagKey _ kv.1, kv.2))).countP
        (fun c => decide (scoreTypeOfName _ c.1 = "auc"))) = 0
      exact countP_wide_zero _ R hlv hbase

/-- C1 witness: on a two-row scalar-float table the long output holds exactly
one AUC entry. -/
theorem auc_presence_iff_binary_shape_witness :
    dfAucCount none (extractOk (evaluate_single_model
      ⟨[1, 2], .floats [0, 1], .ints [0, 1]⟩ false false none)
      (MetricsDF.long [])) = 1 := by
  have h := auc_presence_iff_binary_shape ⟨[1, 2], .floats [0, 1], .ints [0, 1]⟩
    false false none
    (extractOk (evaluate_single_model ⟨[1, 2], .floats [0, 1], .ints [0, 1]⟩
      false false none) (MetricsDF.long []))
    (by decide) trivial (by decide) (by rfl)
  exact h.1.trans (by decide)

/- ## C3: predicted classes and accuracy -/

theorem countP_zip_range {α β : Type} (p : α → β → Bool) :
    ∀ (as : List α) (bs : List β) (da : α) (db : β), as.length = bs.length →
      ((as.zip bs).countP (fun e => p e.1 e.2)) =
        (List.range as.length).countP (fun i => p (as.getD i da) (bs.getD i db)) := by
  intro as
  induction as with
  | nil => intro bs da db h; rfl
  | cons a as2 ih =>
    intro bs da db h
    cases bs with
    | nil => exact absurd h (by simp)
    | cons b bs2 =>
      rw [List.zip_cons_cons, List.countP_cons, List.length_cons,
        List.range_succ_eq_map, List.countP_cons, List.countP_map,
        ih bs2 da db (by simpa using h)]
      rfl

theorem lookup_acc_head (L P : List Lbl) (tail : List (String × MetricVal)) :
    longLookup (formatDF none false ((pyPerformanceRecord L P) ++ tail))
      none "acc" "overall" = some (MetricVal.num (accuracy_score L P)) := by
  show ((((pyPerformanceRecord L P) ++ tail).map (longRowOfTagged none)).find?
      (fun r => decide (r.level = none ∧ r.score_type = "acc" ∧ r.cls = "overall"))).map
      (fun r => r.value) = _
  unfold pyPerformanceRecord
  simp only [List.cons_append, List.map_cons]
  rw [longRowOfTagged_eval none _ "acc" "overall" (by decide)
    (by show ("acc-overall" : String) = _; decide) (Or.inl rfl)]
  rw [List.find?_cons_of_pos _ (by
    show decide ((none : Option String) = none ∧ ("acc" : String) = "acc"
      ∧ ("overall" : String) = "overall") = true
    decide)]
  rfl

theorem npRound_threshold (s : ℚ) (h0 : 0 ≤ s) (h1 : s ≤ 1) :
    npRound s = if 1/2 < s then 1 else 0 := by
  show (if s - (s.floor : ℚ) < 1/2 then s.floor
    else if 1/2 < s - (s.floor : ℚ) then s.floor + 1
    else if s.floor % 2 = 0 then s.floor else s.floor + 1) = _
  rcases eq_or_lt_of_le h1 with he | hlt
  · subst he
    have hfl : (1 : ℚ).floor = (1 : ℤ) := by
      show ⌊(1 : ℚ)⌋ = 1
      exact Int.floor_one
    rw [hfl]
    norm_num
  · have hfl : s.floor = (0 : ℤ) := by
      show ⌊s⌋ = 0
      exact Int.floor_eq_zero_iff.mpr ⟨h0, hlt⟩
    rw [hfl, Int.cast_zero, sub_zero]
    rcases lt_trichotomy s (1/2) with hc | hc | hc
    · rw [if_pos hc, if_neg (not_lt.mpr (le_of_lt hc))]
    · rw [hc]
      norm_num
    · rw [if_neg (not_lt.mpr (le_of_lt hc)), if_pos hc, if_pos hc]
      norm_num

/-- C3: the predicted class of a scalar float score is `np.round` of the
score, which on `[0, 1]` is exactly the 0.5-threshold rule (1 iff the score
exceeds 1/2); the predicted class of a probability vector is its arg-max
index; and the reported overall accuracy (`acc-overall`) is the fraction of
rows whose predicted class equals the ground-truth label. -/
theorem accuracy_fraction_of_matches :
    (∀ s : ℚ, 0 ≤ s → s ≤ 1 → npRound s = if 1/2 < s then 1 else 0)
    ∧ (∀ (ids : List ℤ) (xs : List ℚ) (ys : List ℤ) (out : MetricsDF),
        xs ≠ [] → ys.length = xs.length →
        evaluate_single_model ⟨ids, .floats xs, .ints ys⟩ false false none =
          Except.ok out →
        longLookup out none "acc" "overall" = some (MetricVal.num
          ((((List.range ys.length).countP
              (fun i => decide (ys.getD i 0 = npRound (xs.getD i 0)))) : ℚ) /
            (ys.length : ℚ))))
    ∧ (∀ (ids : List ℤ) (vs : List (List ℚ)) (ys : List ℤ) (out : MetricsDF),
        vs ≠ [] → ys.length = vs.length →
        evaluate_single_model ⟨ids, .vecs vs, .ints ys⟩ false false none =
          Except.ok out →
        longLookup out none "acc" "overall" = some (MetricVal.num
          ((((List.range ys.length).countP
              (fun i => decide (ys.getD i 0 = ((npArgmax (vs.getD i [])) : ℤ)))) : ℚ) /
            (ys.length : ℚ)))) := by
  refine ⟨npRound_threshold, ?_, ?_⟩
  · intro ids xs ys out hxs hlen hok
    rw [evaluate_eq_record] at hok
    rw [show (if (false : Bool) = true then some "id" else none) =
      (none : Option String) from rfl] at hok
    obtain ⟨R, hR, hout⟩ := (except_map_ok _ _ _).mp hok
    subst hout
    cases xs with
    | nil => exact absurd rfl hxs
    | cons x xs2 =>
      have hRe : evalRecordE ⟨ids, .floats (x :: xs2), .ints ys⟩ false none =
          Except.ok (pyPerformanceRecord (lblColToLbls (.ints ys))
            ((x :: xs2).map (fun v => Lbl.i (npRound v)))
            ++ [("auc-overall", MetricVal.num (roc_auc_score ys
              (scores_to_probs (ScoreCol.floats (x :: xs2)))))]) := rfl
      rw [hRe] at hR
      injection hR with hRv
      rw [← hRv]
      rw [lookup_acc_head]
      have hL : (lblColToLbls (LabelCol.ints ys)) = ys.map Lbl.i := rfl
      have hcm : countMatches ((ys.map Lbl.i).zip
          ((x :: xs2).map (fun v => Lbl.i (npRound v)))) =
          (List.range ys.length).countP
            (fun i => decide (ys.getD i 0 = npRound ((x :: xs2).getD i 0))) := by
        unfold countMatches
        rw [List.zip_map]
        rw [List.countP_map]
        show List.countP
          (fun e => decide (Lbl.i e.1 = Lbl.i (npRound e.2))) (ys.zip (x :: xs2)) = _
        rw [countP_zip_range (fun a b => decide (Lbl.i a = Lbl.i (npRound b)))
          ys (x :: xs2) 0 0 hlen]
        simp only [Lbl.i.injEq]
      show some (MetricVal.num (accuracy_score _ _)) = _
      unfold accuracy_score
      rw [hL, hcm, List.length_map]
  · intro ids vs ys out hvs hlen hok
    rw [evaluate_eq_record] at hok
    rw [show (if (false : Bool) = true then some "id" else none) =
      (none : Option String) from rfl] at hok
    obtain ⟨R, hR, hout⟩ := (except_map_ok _ _ _).mp hok
    subst hout
    cases vs with
    | nil => exact absurd rfl hvs
    | cons v vs2 =>
      unfold evalRecordE at hR
      obtain ⟨t, ht, hR⟩ := (except_bind_ok _ _ _).mp hR
      injection ht with hte
      subst hte
      obtain ⟨preds, hpreds, hR⟩ := (except_bind_ok _ _ _).mp hR
      dsimp only at hpreds
      have hpe : predictionsOf (ScoreCol.vecs (v :: vs2)) none =
          Except.ok (((v :: vs2).map npArgmax).map (fun i => Lbl.i (Int.ofNat i))) := rfl
      rw [hpe] at hpreds
      injection hpreds with hpv
      subst hpv
      obtain ⟨isBin, hisBin, hR⟩ := (except_bind_ok _ _ _).mp hR
      dsimp only at hisBin
      have hbe : binaryShapedHead (ScoreCol.vecs (v :: vs2)) =
          Except.ok (decide (v.length = 2)) := rfl
      rw [hbe] at hisBin
      injection hisBin with hbv
      have hfinal : longLookup (formatDF none false R) none "acc" "overall" =
          some (MetricVal.num (accuracy_score (lblColToLbls (LabelCol.ints ys))
            (((v :: vs2).map npArgmax).map (fun i => Lbl.i (Int.ofNat i))))) := by
        cases isBin with
        | true =>
          obtain ⟨li, hli, hR⟩ := (except_bind_ok _ _ _).mp hR
          injection hR with hRv
          rw [← hRv]
          exact lookup_acc_head _ _ _
        | false =>
          injection hR with hRv
          rw [← hRv]
          have h2 := lookup_acc_head (lblColToLbls (LabelCol.ints ys))
            (((v :: vs2).map npArgmax).map (fun i => Lbl.i (Int.ofNat i))) []
          rw [List.append_nil] at h2
          exact h2
      rw [hfinal]
      have hcm : countMatches ((ys.map Lbl.i).zip
          (((v :: vs2).map npArgmax).map (fun i => Lbl.i (Int.ofNat i)))) =
          (List.range ys.length).countP
            (fun i => decide (ys.getD i 0 = ((npArgmax ((v :: vs2).getD i [])) : ℤ))) := by
        unfold countMatches
        rw [List.map_map, List.zip_map, List.countP_map]
        show List.countP (fun e => decide (Lbl.i e.1 = Lbl.i (Int.ofNat (npArgmax e.2))))
          (ys.zip (v :: vs2)) = _
        rw [countP_zip_range
          (fun a b => decide (Lbl.i a = Lbl.i (Int.ofNat (npArgmax b))))
          ys (v :: vs2) 0 []
          hlen]
        simp only [Lbl.i.injEq, Int.ofNat_eq_coe]
      show some (MetricVal.num (accuracy_score _ _)) = _
      unfold accuracy_score
      rw [show (lblColToLbls (LabelCol.ints ys)) = ys.map Lbl.i from rfl, hcm,
        List.length_map]

/-- C3 witness: scores `[0.6, 0.2, 0.8]` against labels `[1, 0, 0]` yield
overall accuracy 2/3. -/
theorem accuracy_fraction_of_matches_witness :
    longLookup (extractOk (evaluate_single_model
        ⟨[0, 0, 0], .floats [3/5, 1/5, 4/5], .ints [1, 0, 0]⟩ false false none)
      (MetricsDF.long [])) none "acc" "overall" =
      some (MetricVal.num (2/3)) := by
  have h := accuracy_fraction_of_matches.2.1 [0, 0, 0] [3/5, 1/5, 4/5] [1, 0, 0]
    (extractOk (evaluate_single_model
        ⟨[0, 0, 0], .floats [3/5, 1/5, 4/5], .ints [1, 0, 0]⟩ false false none)
      (MetricsDF.long [])) (by decide) (by decide) (by rfl)
  rw [h]
  have hf : ∀ q : ℚ, q.floor = ⌊q⌋ := fun _ => rfl
  norm_num [List.range_succ, List.countP_append, List.countP_cons, npRound, hf]
  norm_num [Int.fract]

/- ## C6: wide / long equivalence -/

theorem formatDF_none_entries (w : Bool) (r0 : List (String × MetricVal)) :
    formatDF none w r0 =
      formatEntries w (r0.map (fun kv => ((none : Option String), kv.1, kv.2))) := by
  unfold formatDF formatEntries
  cases w with
  | true =>
    show MetricsDF.wide _ = MetricsDF.wide _
    rw [List.map_map]
    rfl
  | false =>
    show MetricsDF.long _ = MetricsDF.long _
    rw [List.map_map]
    rfl

theorem formatDF_row_id_wide (r0 r1 : List (String × MetricVal)) :
    wideJoin (addNameTag "row" (formatDF none true r0)) (formatDF (some "id") true r1) =
      formatEntries true (r0.map (fun kv => (some "row", kv.1, kv.2))
        ++ r1.map (fun kv => (some "id", kv.1, kv.2))) := by
  unfold formatDF addNameTag wideJoin formatEntries
  show MetricsDF.wide _ = MetricsDF.wide _
  rw [List.map_map, List.map_append, List.map_map, List.map_map]
  rfl

theorem formatDF_row_id_long (r0 r1 : List (String × MetricVal)) :
    longConcat (setLevelCol "row" (formatDF none false r0)) (formatDF (some "id") false r1) =
      formatEntries false (r0.map (fun kv => (some "row", kv.1, kv.2))
        ++ r1.map (fun kv => (some "id", kv.1, kv.2))) := by
  unfold formatDF setLevelCol longConcat formatEntries
  show MetricsDF.long _ = MetricsDF.long _
  rw [List.map_map, List.map_append, List.map_map, List.map_map]
  congr 1

theorem fromdf_eq_entries (df : PredTable) (use_id_col : Bool)
    (m : Option (List (ℤ × String))) (w : Bool) :
    performance_metrics_from_df df use_id_col m w =
      (fromDfRecordE df use_id_col m).map (formatEntries w) := by
  unfold performance_metrics_from_df fromDfRecordE
  rw [evaluate_eq_record df false w m,
    show (if (false : Bool) = true then some "id" else none) =
      (none : Option String) from rfl]
  cases hr0 : evalRecordE df false m with
  | error e => rfl
  | ok r0 =>
    cases use_id_col with
    | false =>
      show Except.ok (formatDF none w r0) = Except.ok (formatEntries w _)
      rw [formatDF_none_entries]
    | true =>
      rw [evaluate_eq_record df true w m,
        show (if (true : Bool) = true then some "id" else none) = some "id" from rfl]
      cases hr1 : evalRecordE df true m with
      | error e => rfl
      | ok r1 =>
        cases w with
        | true =>
          show Except.ok (wideJoin (addNameTag "row" (formatDF none true r0))
              (formatDF (some "id") true r1)) = Except.ok (formatEntries true _)
          rw [formatDF_row_id_wide]
        | false =>
          show Except.ok (longConcat (setLevelCol "row" (formatDF none false r0))
              (formatDF (some "id") false r1)) = Except.ok (formatEntries false _)
          rw [formatDF_row_id_long]

theorem evalRecordE_keys (df : PredTable) (agg : Bool)
    (m : Option (List (ℤ × String))) (r : List (String × MetricVal))
    (hok : evalRecordE df agg m = Except.ok r) :
    ∀ kv ∈ r, ∃ st cls, noDash st ∧ kv.1 = st ++ "-" ++ cls := by
  unfold evalRecordE at hok
  cases agg with
  | false =>
    obtain ⟨t, ht, hok⟩ := (except_bind_ok _ _ _).mp hok
    obtain ⟨preds, hpreds, hok⟩ := (except_bind_ok _ _ _).mp hok
    obtain ⟨isBin, hisBin, hok⟩ := (except_bind_ok _ _ _).mp hok
    cases isBin with
    | true =>
      obtain ⟨li, hli, hok⟩ := (except_bind_ok _ _ _).mp hok
      injection hok with hr
      rw [← hr]
      intro kv hkv
      rcases List.mem_append.mp hkv with h | h
      · obtain ⟨st, cls, hnd, _, hkey⟩ := record_keys_split _ _ kv h
        exact ⟨st, cls, hnd, hkey⟩
      · simp only [List.mem_cons, List.not_mem_nil, or_false] at h
        exact ⟨"auc", "overall", by decide,
          by rw [h]; show ("auc-overall" : String) = _; decide⟩
    | false =>
      injection hok with hr
      rw [← hr]
      intro kv hkv
      obtain ⟨st, cls, hnd, _, hkey⟩ := record_keys_split _ _ kv hkv
      exact ⟨st, cls, hnd, hkey⟩
  | true =>
    obtain ⟨t, ht, hok⟩ := (except_bind_ok _ _ _).mp hok
    obtain ⟨preds, hpreds, hok⟩ := (except_bind_ok _ _ _).mp hok
    obtain ⟨isBin, hisBin, hok⟩ := (except_bind_ok _ _ _).mp hok
    cases isBin with
    | true =>
      obtain ⟨li, hli, hok⟩ := (except_bind_ok _ _ _).mp hok
      injection hok with hr
      rw [← hr]
      intro kv hkv
      rcases List.mem_append.mp hkv with h | h
      · obtain ⟨st, cls, hnd, _, hkey⟩ := record_keys_split _ _ kv h
        exact ⟨st, cls, hnd, hkey⟩
      · simp only [List.mem_cons, List.not_mem_nil, or_false] at h
        exact ⟨"auc", "overall", by decide,
          by rw [h]; show ("auc-overall" : String) = _; decide⟩
    | false =>
      injection hok with hr
      rw [← hr]
      intro kv hkv
      obtain ⟨st, cls, hnd, _, hkey⟩ := record_keys_split _ _ kv hkv
      exact ⟨st, cls, hnd, hkey⟩

theorem fromDfRecordE_good (df : PredTable) (use_id_col : Bool)
    (m : Option (List (ℤ × String))) (R : List (Option String × String × MetricVal))
    (hok : fromDfRecordE df use_id_col m = Except.ok R) :
    (∀ e ∈ R, ∃ st cls, noDash st ∧ e.2.1 = st ++ "-" ++ cls)
      ∧ (use_id_col = true → ∀ e ∈ R, ∃ p, e.1 = some p ∧ noDash p)
      ∧ (use_id_col = false → ∀ e ∈ R, e.1 = none) := by
  unfold fromDfRecordE at hok
  obtain ⟨r0, hr0, hok⟩ := (except_bind_ok _ _ _).mp hok
  cases use_id_col with
  | false =>
    injection hok with hR
    rw [← hR]
    refine ⟨?_, fun hc => absurd hc (by decide), fun _ => ?_⟩
    · intro e he
      obtain ⟨kv, hkv, hee⟩ := List.mem_map.mp he
      obtain ⟨st, cls, hnd, hkey⟩ := evalRecordE_keys df false m r0 hr0 kv hkv
      rw [← hee]
      exact ⟨st, cls, hnd, hkey⟩
    · intro e he
      obtain ⟨kv, hkv, hee⟩ := List.mem_map.mp he
      rw [← hee]
  | true =>
    obtain ⟨r1, hr1, hok⟩ := (except_bind_ok _ _ _).mp hok
    injection hok with hR
    rw [← hR]
    refine ⟨?_, fun _ => ?_, fun hc => absurd hc (by decide)⟩
    · intro e he
      rcases List.mem_append.mp he with h | h
      · obtain ⟨kv, hkv, hee⟩ := List.mem_map.mp h
        obtain ⟨st, cls, hnd, hkey⟩ := evalRecordE_keys df false m r0 hr0 kv hkv
        rw [← hee]
        exact ⟨st, cls, hnd, hkey⟩
      · obtain ⟨kv, hkv, hee⟩ := List.mem_map.mp h
        obtain ⟨st, cls, hnd, hkey⟩ := evalRecordE_keys df true m r1 hr1 kv hkv
        rw [← hee]
        exact ⟨st, cls, hnd, hkey⟩
    · intro e he
      rcases List.mem_append.mp he with h | h
      · obtain ⟨kv, hkv, hee⟩ := List.mem_map.mp h
        rw [← hee]
        exact ⟨"row", rfl, by decide⟩
      · obtain ⟨kv, hkv, hee⟩ := List.mem_map.mp h
        rw [← hee]
        exact ⟨"id", rfl, by decide⟩

theorem find_equiv_levels (R : List (Option String × String × MetricVal))
    (hG : ∀ e ∈ R, ∃ st cls, noDash st ∧ e.2.1 = st ++ "-" ++ cls)
    (hL : ∀ e ∈ R, ∃ p, e.1 = some p ∧ noDash p)
    (lvl st cls : String) (hlvl : noDash lvl) (hst : noDash st) (v : MetricVal) :
    ((R.map (fun e => (tagKey e.1 e.2.1, e.2.2))).find?
        (fun kv => decide (kv.1 = lvl ++ "-" ++ st ++ "-" ++ cls))).map (fun kv => kv.2)
        = some v
      ↔ ((R.map longRowOfEntry).find?
        (fun r => decide (r.level = some lvl ∧ r.score_type = st ∧ r.cls = cls))).map
          (fun r => r.value) = some v := by
  induction R with
  | nil => exact Iff.rfl
  | cons e R ih =>
    obtain ⟨st0, cls0, hst0, hkey⟩ := hG e (List.mem_cons_self e R)
    obtain ⟨p, hp, hpnd⟩ := hL e (List.mem_cons_self e R)
    have hassoc : lvl ++ "-" ++ st ++ "-" ++ cls = lvl ++ "-" ++ (st ++ "-" ++ cls) := by
      apply String.ext
      simp [String.data_append, List.append_assoc]
    have hcond : (tagKey e.1 e.2.1 = lvl ++ "-" ++ st ++ "-" ++ cls)
        ↔ (p = lvl ∧ st0 = st ∧ cls0 = cls) := by
      rw [hp, hkey]
      show p ++ "-" ++ (st0 ++ "-" ++ cls0) = lvl ++ "-" ++ st ++ "-" ++ cls ↔ _
      rw [hassoc, str_append_dash_inj p (st0 ++ "-" ++ cls0) lvl (st ++ "-" ++ cls) hpnd hlvl,
        str_append_dash_inj st0 cls0 st cls hst0 hst]
    have hrow : longRowOfEntry e = ⟨some p, cls0, st0, e.2.2⟩ := by
      unfold longRowOfEntry
      rw [hp]
      dsimp only
      rw [hkey, pySplit2_dash_append p st0 cls0 hpnd hst0]
    have hrowcond : ((longRowOfEntry e).level = some lvl
        ∧ (longRowOfEntry e).score_type = st ∧ (longRowOfEntry e).cls = cls)
        ↔ (p = lvl ∧ st0 = st ∧ cls0 = cls) := by
      rw [hrow]
      simp
    rw [List.map_cons, List.map_cons]
    by_cases hc : p = lvl ∧ st0 = st ∧ cls0 = cls
    · rw [List.find?_cons_of_pos]
      rotate_left
      · exact decide_eq_true (hcond.mpr hc)
      rw [List.find?_cons_of_pos]
      rotate_left
      · exact decide_eq_true (hrowcond.mpr hc)
      simp [hrow]
    · rw [List.find?_cons_of_neg]
      rotate_left
      · exact fun hpt => hc (hcond.mp (of_decide_eq_true hpt))
      rw [List.find?_cons_of_neg]
      rotate_left
      · exact fun hpt => hc (hrowcond.mp (of_decide_eq_true hpt))
      exact ih (fun e2 he2 => hG e2 (List.mem_cons_of_mem e he2))
        (fun e2 he2 => hL e2 (List.mem_cons_of_mem e he2))

theorem find_equiv_nolevel (R : List (Option String × String × MetricVal))
    (hG : ∀ e ∈ R, ∃ st cls, noDash st ∧ e.2.1 = st ++ "-" ++ cls)
    (hN : ∀ e ∈ R, e.1 = none)
    (st cls : String) (hst : noDash st) (v : MetricVal) :
    ((R.map (fun e => (tagKey e.1 e.2.1, e.2.2))).find?
        (fun kv => decide (kv.1 = st ++ "-" ++ cls))).map (fun kv => kv.2) = some v
      ↔ ((R.map longRowOfEntry).find?
        (fun r => decide (r.level = none ∧ r.score_type = st ∧ r.cls = cls))).map
          (fun r => r.value) = some v := by
  induction R with
  | nil => exact Iff.rfl
  | cons e R ih =>
    obtain ⟨st0, cls0, hst0, hkey⟩ := hG e (List.mem_cons_self e R)
    have hp := hN e (List.mem_cons_self e R)
    have hcond : (tagKey e.1 e.2.1 = st ++ "-" ++ cls) ↔ (st0 = st ∧ cls0 = cls) := by
      rw [hp, hkey]
      show st0 ++ "-" ++ cls0 = st ++ "-" ++ cls ↔ _
      exact str_append_dash_inj st0 cls0 st cls hst0 hst
    have hrow : longRowOfEntry e = ⟨none, cls0, st0, e.2.2⟩ := by
      unfold longRowOfEntry
      rw [hp]
      dsimp only
      rw [hkey, pySplit1_dash_append st0 cls0 hst0]
    have hrowcond : ((longRowOfEntry e).level = (none : Option String)
        ∧ (longRowOfEntry e).score_type = st ∧ (longRowOfEntry e).cls = cls)
        ↔ (st0 = st ∧ cls0 = cls) := by
      rw [hrow]
      simp
    rw [List.map_cons, List.map_cons]
    by_cases hc : st0 = st ∧ cls0 = cls
    · rw [List.find?_cons_of_pos]
      rotate_left
      · exact decide_eq_true (hcond.mpr hc)
      rw [List.find?_cons_of_pos]
      rotate_left
      · exact decide_eq_true (hrowcond.mpr hc)
      simp [hrow]
    · rw [List.find?_cons_of_neg]
      rotate_left
      · exact fun hpt => hc (hcond.mp (of_decide_eq_true hpt))
      rw [List.find?_cons_of_neg]
      rotate_left
      · exact fun hpt => hc (hrowcond.mp (of_decide_eq_true hpt))
      exact ih (fun e2 he2 => hG e2 (List.mem_cons_of_mem e he2))
        (fun e2 he2 => hN e2 (List.mem_cons_of_mem e he2))

/-- C6: for the same prediction table and options, the wide-layout and
long-layout outputs of `performance_metrics_from_df` are informationally
equivalent: with an id column the wide column named
`level ++ "-" ++ score_type ++ "-" ++ class` holds a value iff the long
output's row with that level, score type and class holds the same value,
and without an id column the wide column `score_type ++ "-" ++ class`
likewise matches the long row with no level, in both directions. -/
theorem wide_long_equivalent (df : PredTable) (use_id_col : Bool)
    (m : Option (List (ℤ × String))) (wdf ldf : MetricsDF)
    (hW : performance_metrics_from_df df use_id_col m true = Except.ok wdf)
    (hL : performance_metrics_from_df df use_id_col m false = Except.ok ldf) :
    (use_id_col = true → ∀ lvl st cls v, noDash lvl → noDash st →
      (wideLookup wdf (lvl ++ "-" ++ st ++ "-" ++ cls) = some v ↔
        longLookup ldf (some lvl) st cls = some v))
    ∧ (use_id_col = false → ∀ st cls v, noDash st →
      (wideLookup wdf (st ++ "-" ++ cls) = some v ↔
        longLookup ldf none st cls = some v)) := by
  rw [fromdf_eq_entries] at hW hL
  cases hR : fromDfRecordE df use_id_col m with
  | error e =>
    rw [hR] at hW
    exact absurd hW (by intro h; injection h)
  | ok R =>
    rw [hR] at hW hL
    injection hW with hWv
    injection hL with hLv
    obtain ⟨hGood, hLv1, hLv0⟩ := fromDfRecordE_good df use_id_col m R hR
    constructor
    · intro huse lvl st cls v hlvl hst
      rw [← hWv, ← hLv]
      show ((R.map (fun e => (tagKey e.1 e.2.1, e.2.2))).find?
          (fun kv => decide (kv.1 = lvl ++ "-" ++ st ++ "-" ++ cls))).map (fun kv => kv.2)
          = some v
        ↔ ((R.map longRowOfEntry).find?
          (fun r => decide (r.level = some lvl ∧ r.score_type = st ∧ r.cls = cls))).map
            (fun r => r.value) = some v
      exact find_equiv_levels R hGood (hLv1 huse) lvl st cls hlvl hst v
    · intro huse st cls v hst
      rw [← hWv, ← hLv]
      show ((R.map (fun e => (tagKey e.1 e.2.1, e.2.2))).find?
          (fun kv => decide (kv.1 = st ++ "-" ++ cls))).map (fun kv => kv.2) = some v
        ↔ ((R.map longRowOfEntry).find?
          (fun r => decide (r.level = none ∧ r.score_type = st ∧ r.cls = cls))).map
            (fun r => r.value) = some v
      exact find_equiv_nolevel R hGood (hLv0 huse) st cls hst v

theorem wide_long_equivalent_witness :
    wideLookup (extractOk (performance_metrics_from_df
        ⟨[2, 1], .floats [1, 0], .ints [1, 0]⟩ true none true) (MetricsDF.wide []))
      ("row" ++ "-" ++ "acc" ++ "-" ++ "overall") = some (MetricVal.num 1)
      ↔ longLookup (extractOk (performance_metrics_from_df
        ⟨[2, 1], .floats [1, 0], .ints [1, 0]⟩ true none false) (MetricsDF.long []))
      (some "row") "acc" "overall" = some (MetricVal.num 1) :=
  (wide_long_equivalent ⟨[2, 1], .floats [1, 0], .ints [1, 0]⟩ true none
      (extractOk (performance_metrics_from_df
        ⟨[2, 1], .floats [1, 0], .ints [1, 0]⟩ true none true) (MetricsDF.wide []))
      (extractOk (performance_metrics_from_df
        ⟨[2, 1], .floats [1, 0], .ints [1, 0]⟩ true none false) (MetricsDF.long []))
      (by rfl) (by rfl)).1 rfl "row" "acc" "overall" (MetricVal.num 1)
    (by decide) (by decide)
